import Mathlib

/-!
Verification development for the kilo text editor core (kilo.c).

The definitions below are a shallow embedding of the editor's data model
and operations: rows hold `raw` bytes, derived `render` bytes (tab
expansion), a per-render-byte highlight classification `hl`, and the
`hl_open_comment` flag.  Bytes are modelled as `Char` (the source operates
on ASCII byte values), buffers as `List Char`, and the implicit array
lengths of the C code as list lengths.  Machine-integer wraparound is
modelled explicitly where the source relies on it (the unsigned "no match"
sentinel in the search callback).
-/

set_option maxHeartbeats 1000000

namespace Kilo

/-- Highlight classes, from the EditorHighlight enum in kilo.c. -/
inductive Hl where
  | normal
  | comment
  | mlcomment
  | keyword1
  | keyword2
  | hlstring
  | number
  | hlmatch
deriving DecidableEq, Repr

/-- Embedding of is_separator from kilo.c: a byte is a separator when it
is C whitespace (space, tab, newline, vertical tab, form feed, carriage
return), the NUL byte, or one of the punctuation bytes listed in the
strchr call of the source. -/
def is_separator (c : Char) : Bool :=
  (c = ' ' || c = '\t' || c = '\n' || c = Char.ofNat 11 || c = Char.ofNat 12 || c = '\r')
  || c = Char.ofNat 0
  || [',', '.', '(', ')', '+', '-', '/', '*', '=', '~', '%', '<', '>', '[', ']', ';'].contains c

/-- Embedding of the EditorSyntax struct from kilo.c.  The two flag bits
`HL_HIGHLIGHT_NUMBERS` and `HL_HIGHLIGHT_STRINGS` are modelled as two
booleans.  Keywords keep the source convention that a trailing `|` marks a
secondary keyword. -/
structure EditorSyntax where
  hlNumbers : Bool
  hlStrings : Bool
  keywords : List (List Char)
  singlelineComment : List Char
  multilineCommentStart : List Char
  multilineCommentEnd : List Char
deriving DecidableEq, Repr

/-- Embedding of the single entry of HLDB in kilo.c (the C-language rules). -/
def cSyntax : EditorSyntax :=
  { hlNumbers := true
  , hlStrings := true
  , keywords :=
      [ "switch".toList, "if".toList, "while".toList, "for".toList, "break".toList
      , "continue".toList, "return".toList, "else".toList, "struct".toList, "union".toList
      , "typedef".toList, "static".toList, "enum".toList, "class".toList, "case".toList
      , "int|".toList, "long|".toList, "double|".toList, "float|".toList, "char|".toList
      , "unsigned|".toList, "signed|".toList, "void|".toList ]
  , singlelineComment := ['/', '/']
  , multilineCommentStart := ['/', '*']
  , multilineCommentEnd := ['*', '/'] }

/-- Occurrence of `needle` as a contiguous substring of the haystack,
modelling a successful strstr search over NUL-free byte lists. -/
def occurs (needle : List Char) : List Char → Bool
  | [] => needle.isPrefixOf []
  | c :: rest => needle.isPrefixOf (c :: rest) || occurs needle rest

/-- State record holding the mutable locals of the scan loop in `editorUpdateSyntax`:
`prev_hl`, `prev_sep`, `in_string` (`none` = not in a string, otherwise the
quote character), `in_comment` and `escape`. -/
structure ScanState where
  prevHl : Hl
  prevSep : Bool
  inString : Option Char
  inComment : Bool
  escape : Bool
deriving DecidableEq, Repr

/-- Embedding of the keyword-table search of `editorUpdateSyntax`: find the first
keyword (in table order) whose body is a prefix of the remaining render
bytes and is followed by a separator byte (the C code reads the NUL
terminator when the keyword ends the row, modelled by `getD` with the NUL
character).  Returns the secondary-class flag and the keyword body.
The `body ≠ []` guard only excludes empty keyword bodies, on which the C
loop would not terminate; the real keyword table has none. -/
def kwBody (kw : List Char) : List Char :=
  if kw.getLastD (Char.ofNat 0) = '|' then kw.dropLast else kw

def findKeyword (kws : List (List Char)) (rest : List Char) : Option (Bool × List Char) :=
  match kws with
  | [] => none
  | kw :: t =>
    if kwBody kw ≠ [] ∧ (kwBody kw).isPrefixOf rest ∧
        is_separator ((rest.drop (kwBody kw).length).headD (Char.ofNat 0)) then
      some (kw.getLastD (Char.ofNat 0) == '|', kwBody kw)
    else
      findKeyword t rest

/-- Embedding of one iteration of the scan loop of `editorUpdateSyntax`, at the render
suffix `c :: rest`.  `Sum.inl (hls, st')` means: classify the next
`hls.length` bytes as `hls`, continue in state `st'` (the C `continue`
after advancing `i`); `Sum.inr hls` means: classify the whole remaining
suffix as `hls` and stop scanning the row (the single-line-comment
`break`). -/
def hlStep (syn : EditorSyntax) (st : ScanState) (c : Char) (rest : List Char) :
    (List Hl × ScanState) ⊕ List Hl :=
  let l := c :: rest
  -- multi-line comment handling
  if syn.multilineCommentStart ≠ [] ∧ syn.multilineCommentEnd ≠ [] ∧ st.inString = none then
    if st.inComment then
      if syn.multilineCommentEnd.isPrefixOf l then
        Sum.inl (List.replicate syn.multilineCommentEnd.length Hl.mlcomment,
          { st with prevHl := Hl.mlcomment, inComment := false, prevSep := true })
      else
        Sum.inl ([Hl.mlcomment], { st with prevHl := Hl.mlcomment, prevSep := false })
    else if syn.multilineCommentStart.isPrefixOf l then
      Sum.inl (List.replicate syn.multilineCommentStart.length Hl.mlcomment,
        { st with prevHl := Hl.mlcomment, inComment := true, prevSep := true })
    else
      hlStepRest syn st c rest
  else
    hlStepRest syn st c rest
where
  /-- Embedding of the fall-through part of the loop body: single-line comments,
  strings, numbers, keywords, default. -/
  hlStepRest (syn : EditorSyntax) (st : ScanState) (c : Char) (rest : List Char) :
      (List Hl × ScanState) ⊕ List Hl :=
    let l := c :: rest
    if syn.singlelineComment ≠ [] ∧ st.inString = none ∧
        syn.singlelineComment.isPrefixOf l then
      Sum.inr (List.replicate l.length Hl.comment)
    else if syn.hlStrings ∧ (st.inString ≠ none ∨ c = '"' ∨ c = '\'') then
      match st.inString with
      | none =>
        Sum.inl ([Hl.hlstring], { st with prevHl := Hl.hlstring, inString := some c, prevSep := true })
      | some q =>
        if c = q then
          if st.escape then
            Sum.inl ([Hl.hlstring], { st with prevHl := Hl.hlstring, escape := false })
          else
            Sum.inl ([Hl.hlstring], { st with prevHl := Hl.hlstring, inString := none, prevSep := true })
        else
          Sum.inl ([Hl.hlstring],
            { st with prevHl := Hl.hlstring, escape := !st.escape && c = '\\', prevSep := false })
    else if syn.hlNumbers ∧
        ((c.isDigit ∧ (st.prevSep ∨ st.prevHl = Hl.number)) ∨ (c = '.' ∧ st.prevHl = Hl.number)) then
      Sum.inl ([Hl.number], { st with prevHl := Hl.number, prevSep := false })
    else if st.prevSep then
      match findKeyword syn.keywords l with
      | some (kw2, body) =>
        let cls := if kw2 then Hl.keyword2 else Hl.keyword1
        Sum.inl (List.replicate body.length cls,
          { st with prevHl := cls, prevSep := is_separator (body.getLastD (Char.ofNat 0)) })
      | none =>
        Sum.inl ([Hl.normal], { st with prevHl := Hl.normal, prevSep := is_separator c })
    else
      Sum.inl ([Hl.normal], { st with prevHl := Hl.normal, prevSep := is_separator c })

/-- Embedding of the scan loop of `editorUpdateSyntax` over the render bytes of one
row: produces the highlight class of every render byte and the final
`in_comment` value (which becomes the row's `hl_open_comment`).  A `Sum.inl`
step classifies `hls.length ≥ 1` bytes and continues past them (the
recursive call is on `rest.drop (hls.length - 1)`, which equals dropping
`hls.length` bytes of `c :: rest`). -/
def hlScanAux (syn : EditorSyntax) (st : ScanState) : List Char → List Hl × Bool
  | [] => ([], st.inComment)
  | c :: rest =>
    match hlStep syn st c rest with
    | Sum.inr hls => (hls, st.inComment)
    | Sum.inl (hls, st') =>
      let r := hlScanAux syn st' (rest.drop (hls.length - 1))
      (hls ++ r.1, r.2)
termination_by l => l.length
decreasing_by
  simp only [List.length_drop, List.length_cons]
  omega

/-- Scan one row's render bytes starting from the loop's initial state in
`editorUpdateSyntax` (`prev_hl = HL_NORMAL`, `prev_sep = 1`, no string, no
escape, `in_comment` seeded from the previous row's `hl_open_comment`). -/
def hlScan (syn : EditorSyntax) (inComment0 : Bool) (render : List Char) : List Hl × Bool :=
  hlScanAux syn
    { prevHl := Hl.normal, prevSep := true, inString := none
    , inComment := inComment0, escape := false } render

/-- Embedding of the tab branch of `editorUpdateRow`: the do-while loop that
emits space bytes (incrementing the render column `r`) until `r` is a
multiple of `KILO_TAB_STOP` (8).  Returns the emitted spaces and the new
column. -/
def emitTab (r : Nat) : List Char × Nat :=
  if (r + 1) % 8 = 0 then ([' '], r + 1)
  else
    let t := emitTab (r + 1)
    (' ' :: t.1, t.2)
termination_by 8 - r % 8
decreasing_by omega

/-- Embedding of the scan loop of `editorUpdateRow`: rebuild the render bytes from
the raw bytes, carrying the render column `r`; a tab byte emits spaces up
to the next tab stop, any other byte is copied and advances the column by
one. -/
def editorUpdateRowGo (r : Nat) : List Char → List Char
  | [] => []
  | c :: rest =>
    if c = '\t' then
      let t := emitTab r
      t.1 ++ editorUpdateRowGo t.2 rest
    else
      c :: editorUpdateRowGo (r + 1) rest

/-- Render derivation of `editorUpdateRow` (second revision of kilo.c): the
render buffer is freed and rebuilt from scratch from the raw bytes, starting
at render column 0. -/
def renderOfRaw (raw : List Char) : List Char :=
  editorUpdateRowGo 0 raw

/-- Step of the shared tab-stop rule of `editorRowCxToRx` and
`editorRowRxToCx`: the visual column after placing byte `c` at visual
column `rx` (a tab advances to the next multiple of 8, via
`rx += (KILO_TAB_STOP - 1) - (rx % KILO_TAB_STOP)` followed by `++rx`). -/
def rxStep (rx : Nat) (c : Char) : Nat :=
  if c = '\t' then rx + (8 - rx % 8) else rx + 1

/-- Embedding of the loop of `editorRowCxToRx`, walking the first `cx` raw bytes
and accumulating the visual column. -/
def cxToRxGo : List Char → Nat → Nat → Nat
  | _, 0, rx => rx
  | [], _ + 1, rx => rx
  | c :: rest, n + 1, rx => cxToRxGo rest n (rxStep rx c)

/-- Embedding of `editorRowCxToRx` from kilo.c: visual column of raw index `cx`. -/
def editorRowCxToRx (raw : List Char) (cx : Nat) : Nat :=
  cxToRxGo raw cx 0

/-- Embedding of the loop of `editorRowRxToCx`: walk the raw bytes accumulating
`current_rx`; as soon as `current_rx` exceeds the target `rx`, return the
current raw index, otherwise return the raw length. -/
def rxToCxGo : List Char → Nat → Nat → Nat → Nat
  | [], _, cx, _ => cx
  | c :: rest, cur, cx, rx =>
    let cur' := rxStep cur c
    if rx < cur' then cx else rxToCxGo rest cur' (cx + 1) rx

/-- Embedding of `editorRowRxToCx` from kilo.c. -/
def editorRowRxToCx (raw : List Char) (rx : Nat) : Nat :=
  rxToCxGo raw 0 0 rx

/-- Row representation, from struct Line of kilo.c.  The `index` field of
the source is the row's position in the document list and is kept
implicitly; `hl` models the contents of the highlight buffer (the C code
tracks no separate length for it: the buffer is reallocated to the render
length whenever the render bytes are nonempty, and left untouched
otherwise). -/
structure Line where
  raw : List Char
  render : List Char
  hl : List Hl
  hlOpenComment : Bool
deriving DecidableEq, Repr

/-- Seed of the scan's `in_comment` flag in `editorUpdateSyntax`:
`line->index && editor.lines[line->index - 1].hl_open_comment`. -/
def syntaxInC (lines : List Line) (i : Nat) : Bool :=
  decide (0 < i) && ((lines[i-1]?).map Line.hlOpenComment).getD false

/-- Effect of one `editorUpdateSyntax` call on the row itself: overwrite the
highlight buffer with the scan result (unless the render bytes are empty,
in which case the buffer is left untouched) and store the final
`in_comment` as the row's `hl_open_comment`. -/
def updateSyntaxRow (s : EditorSyntax) (inC : Bool) (line : Line) : Line :=
  { line with
    hl := if line.render = [] then line.hl else (hlScan s inC line.render).1
    , hlOpenComment := (hlScan s inC line.render).2 }

/-- Embedding of `editorUpdateSyntax` from kilo.c, acting on the whole document
list at row index `i` (the C function receives a row pointer and reaches
its neighbours through the global editor): reallocate and clear the
highlight buffer when the render bytes are nonempty; when a syntax rule is
active, seed `in_comment` from the previous row's `hl_open_comment`, scan
the render bytes, store the row's new `hl_open_comment`, and recursively
re-run on the next row when that flag changed and a next row exists. -/
def editorUpdateSyntax (syn : Option EditorSyntax) (lines : List Line) (i : Nat) : List Line :=
  match lines[i]? with
  | none => lines
  | some line =>
    match syn with
    | none =>
      lines.set i { line with
        hl := if line.render = [] then line.hl
              else List.replicate line.render.length Hl.normal }
    | some s =>
      if line.hlOpenComment ≠ (hlScan s (syntaxInC lines i) line.render).2 ∧
          i + 1 < lines.length then
        editorUpdateSyntax syn (lines.set i (updateSyntaxRow s (syntaxInC lines i) line)) (i + 1)
      else
        lines.set i (updateSyntaxRow s (syntaxInC lines i) line)
termination_by lines.length - i
decreasing_by
  simp only [List.length_set]
  omega

/-- Embedding of `editorUpdateRow` from kilo.c at document level: rebuild row
`i`'s render bytes from its raw bytes, then run `editorUpdateSyntax` on it. -/
def editorUpdateRow (syn : Option EditorSyntax) (lines : List Line) (i : Nat) : List Line :=
  match lines[i]? with
  | none => lines
  | some line =>
    editorUpdateSyntax syn (lines.set i { line with render := renderOfRaw line.raw }) i

/-- Editor session state: the fields of the global Editor struct of kilo.c
used by the document model (screen geometry, scroll offsets and the status
message belong to the viewport/renderer and are not needed here). -/
structure EditorState where
  esyn : Option EditorSyntax
  lines : List Line
  cx : Nat
  cy : Nat
  dirty : Nat
deriving Repr

/-- Embedding of `editorInsertRow` from kilo.c: insert a fresh row (raw bytes
`s`, empty render and highlight, no open comment) at index `at0`, bump the
dirty counter, and run `editorUpdateRow` on the new row. -/
def editorInsertRow (st : EditorState) (at0 : Nat) (s : List Char) : EditorState :=
  let newLine : Line := { raw := s, render := [], hl := [], hlOpenComment := false }
  { st with
    lines := editorUpdateRow st.esyn (st.lines.insertIdx at0 newLine) at0
    , dirty := st.dirty + 1 }

/-- Embedding of `editorDelRow` from kilo.c: remove row `at0` when in range. -/
def editorDelRow (st : EditorState) (at0 : Nat) : EditorState :=
  if at0 < st.lines.length then
    { st with lines := st.lines.eraseIdx at0, dirty := st.dirty + 1 }
  else
    st

/-- Embedding of `editorRowInsertChar` from kilo.c, at row `i`: clamp the
insert position to the raw length, insert the byte, bump dirty, and re-run
`editorUpdateRow`. -/
def editorRowInsertChar (st : EditorState) (i at0 : Nat) (c : Char) : EditorState :=
  match st.lines[i]? with
  | none => st
  | some line =>
    let at1 := min at0 line.raw.length
    { st with
      lines := editorUpdateRow st.esyn
        (st.lines.set i { line with raw := line.raw.insertIdx at1 c }) i
      , dirty := st.dirty + 1 }

/-- Embedding of `editorRowAppendString` from kilo.c, at row `i`: appending an
empty string is a no-op; otherwise append the bytes to the raw buffer,
re-run `editorUpdateRow` and bump dirty. -/
def editorRowAppendString (st : EditorState) (i : Nat) (s : List Char) : EditorState :=
  if s = [] then st
  else
    match st.lines[i]? with
    | none => st
    | some line =>
      { st with
        lines := editorUpdateRow st.esyn
          (st.lines.set i { line with raw := line.raw ++ s }) i
        , dirty := st.dirty + 1 }

/-- Embedding of `editorRowDelChar` from kilo.c, at row `i`: when the position
is in range, remove that raw byte, re-run `editorUpdateRow` and bump dirty. -/
def editorRowDelChar (st : EditorState) (i at0 : Nat) : EditorState :=
  match st.lines[i]? with
  | none => st
  | some line =>
    if at0 < line.raw.length then
      { st with
        lines := editorUpdateRow st.esyn
          (st.lines.set i { line with raw := line.raw.eraseIdx at0 }) i
        , dirty := st.dirty + 1 }
    else
      st

/-- Embedding of `editorInsertChar` from kilo.c: create an empty row first when
the cursor sits one past the last row, insert the byte at the cursor, and
advance the cursor column. -/
def editorInsertChar (st : EditorState) (c : Char) : EditorState :=
  let st1 := if st.cy = st.lines.length then editorInsertRow st st.cy [] else st
  let st2 := editorRowInsertChar st1 st.cy st.cx c
  { st2 with cx := st2.cx + 1 }

/-- Embedding of `editorInsertNewline` from kilo.c: with the cursor inside a
row, insert the tail of the row as a new row below, truncate the current
row at the cursor and re-run `editorUpdateRow` on it, then zero the cursor
column; with the cursor at column 0, insert an empty row above.  In both
cases the cursor moves down one row. -/
def editorInsertNewlineGo (st : EditorState) : EditorState :=
  if 0 < st.cx then
    match st.lines[st.cy]? with
    | none => st
    | some line =>
      match (editorInsertRow st (st.cy + 1) (line.raw.drop st.cx)).lines[st.cy]? with
      | none => editorInsertRow st (st.cy + 1) (line.raw.drop st.cx)
      | some line1 =>
        { editorInsertRow st (st.cy + 1) (line.raw.drop st.cx) with
          lines := editorUpdateRow st.esyn
            ((editorInsertRow st (st.cy + 1) (line.raw.drop st.cx)).lines.set st.cy
              { line1 with raw := line1.raw.take st.cx }) st.cy
          , cx := 0 }
  else
    editorInsertRow st st.cy []

def editorInsertNewline (st : EditorState) : EditorState :=
  { editorInsertNewlineGo st with cy := (editorInsertNewlineGo st).cy + 1 }

/-- Embedding of `editorDelChar` from kilo.c: with the cursor inside a row,
delete the byte before the cursor; at column 0 of a later row, append the
current row's raw bytes to the previous row, delete the current row, and
place the cursor at the previous row's former end; a no-op at the document
start or past the last row. -/
def editorDelChar (st : EditorState) : EditorState :=
  if st.cy < st.lines.length then
    match st.lines[st.cy]? with
    | none => st
    | some line =>
      if 0 < st.cx then
        editorRowDelChar { st with cx := st.cx - 1 } st.cy (st.cx - 1)
      else if 0 < st.cy then
        editorDelRow
          (editorRowAppendString
            { st with
              cy := st.cy - 1,
              cx := ((st.lines[st.cy - 1]?).map (fun l => l.raw.length)).getD 0 }
            (st.cy - 1) line.raw)
          st.cy
      else
        st
  else
    st

/-- Embedding of `editorRowsToString` from kilo.c: every row's raw bytes
followed by one newline, in row order. -/
def editorRowsToString : List Line → List Char
  | [] => []
  | l :: rest => l.raw ++ '\n' :: editorRowsToString rest

/-- Embedding of the write loop of `editorSave`: `results` is the sequence of
outcomes of the external write calls (`none` models a -1 I/O error,
`some w` a short or full write of `w` bytes).  Returns the remaining
unwritten byte count when the loop stops (which the source assigns to
`editor.dirty`) and whether an error was reported to the status bar.
When the outcome list runs out with bytes still unwritten the loop is cut
off with no error (executions of interest supply enough outcomes). -/
def editorSaveLoop : List (Option Nat) → Nat → Nat × Bool
  | _, 0 => (0, false)
  | [], len + 1 => (len + 1, false)
  | r :: rs, len + 1 =>
    match r with
    | none => (len + 1, true)
    | some w => editorSaveLoop rs (len + 1 - w)

/-- Embedding of `editorSave` from kilo.c after a successful open: write the
serialized rows with the given write outcomes; the editor's dirty counter
is then assigned the remaining length (`editor.dirty = len`).  Returns the
new dirty value and the error flag. -/
def editorSaveModel (lines : List Line) (results : List (Option Nat)) : Nat × Bool :=
  editorSaveLoop results (editorRowsToString lines).length

/-- Constants for the unsigned arithmetic in `editorFindCallback`:
`last_match` is an `unsigned` initialized to `(unsigned)-1`. -/
def u32Mod : Nat := 2 ^ 32

/-- Value of a C int cast to 32-bit unsigned. -/
def intToU32 (d : Int) : Nat := (d % (2 ^ 32 : Int)).toNat

/-- Sentinel value of `last_match` meaning no prior match. -/
def noLastMatch : Nat := 2 ^ 32 - 1

/-- Embedding of the scan loop of `editorFindCallback`: starting from the
unsigned `current = last_match`, repeat at most `fuel` times (the source
iterates `numlines` times): add the direction with unsigned wraparound,
clamp out-of-range values to the first or last row according to the
direction, and return the first row whose nonempty render bytes contain
the query. -/
def editorFindScanGo (renders : List (List Char)) (query : List Char) (dir : Int) :
    Nat → Nat → Option Nat
  | _, 0 => none
  | current, fuel + 1 =>
    let cur1 := (current + intToU32 dir) % u32Mod
    let cur2 :=
      if renders.length ≤ cur1 then (if dir = 1 then 0 else renders.length - 1) else cur1
    let line := (renders[cur2]?).getD []
    if line ≠ [] ∧ occurs query line then some cur2
    else editorFindScanGo renders query dir cur2 fuel

/-- One search step of `editorFindCallback`: scan all rows starting after
`last` in direction `dir`, returning the row index of the new match (and
new `last_match`), if any. -/
def editorFindScan (renders : List (List Char)) (query : List Char) (last : Nat) (dir : Int) :
    Option Nat :=
  editorFindScanGo renders query dir last renders.length

/-- Embedding of the inner read loop of `editorOpen`: split off the first line,
including its terminating newline byte when one is present before
end-of-input. -/
def takeLine : List Char → List Char × List Char
  | [] => ([], [])
  | c :: rest =>
    if c = '\n' then ([c], rest)
    else
      let t := takeLine rest
      (c :: t.1, t.2)

/-- Embedding of the per-line truncation of `editorOpen`: drop the last
accumulated byte unconditionally (`--line.len`), then drop one more byte
when the remaining line is nonempty and ends with a carriage return. -/
def stripLine (l : List Char) : List Char :=
  let l1 := l.dropLast
  if l1 ≠ [] ∧ l1.getLastD (Char.ofNat 0) = '\r' then l1.dropLast else l1

/-- Helper for the termination of the outer read loop: splitting off a line
from nonempty input strictly shrinks the remainder. -/
theorem takeLine_snd_length : ∀ l : List Char, l ≠ [] → (takeLine l).2.length < l.length := by
  intro l
  induction l with
  | nil => intro h; exact absurd rfl h
  | cons c rest ih =>
    intro _
    by_cases hc : c = '\n'
    · simp [takeLine, hc]
    · rcases rest with _ | ⟨d, rest'⟩
      · simp [takeLine, hc]
      · have := ih (by simp)
        simp only [takeLine, if_neg hc]
        simpa using Nat.lt_trans this (Nat.lt_succ_self _)

/-- Embedding of the outer read loop of `editorOpen`: split the input into
newline-terminated chunks; every nonempty chunk is truncated by
`stripLine` and becomes a row's raw bytes (an empty chunk only arises at
end-of-input, where the source's `if (line.len)` skips it). -/
def editorOpenRows : List Char → List (List Char)
  | [] => []
  | c :: rest =>
    let t := takeLine (c :: rest)
    stripLine t.1 :: editorOpenRows t.2
termination_by l => l.length
decreasing_by exact takeLine_snd_length _ (by simp)

/-- Next tab stop after visual column `v`, as the specification states the
tab rule: advance to the next multiple of the tab stop (8). -/
def nextTabStop (v : Nat) : Nat := v + (8 - v % 8)

/-- Render derivation modelled from the specification's words, for
comparison with `renderOfRaw`: every tab expands to the spaces needed to
reach the next multiple of the tab stop, every other byte is copied and
advances the visual column by one. -/
def renderSpec : Nat → List Char → List Char
  | _, [] => []
  | v, c :: rest =>
    if c = '\t' then
      List.replicate (nextTabStop v - v) ' ' ++ renderSpec (nextTabStop v) rest
    else
      c :: renderSpec (v + 1) rest

/-! ### Basic properties of the scanner -/

theorem findKeyword_some {kws : List (List Char)} {rest : List Char} {kw2 : Bool}
    {body : List Char} (h : findKeyword kws rest = some (kw2, body)) :
    body ≠ [] ∧ body.isPrefixOf rest = true := by
  induction kws with
  | nil => simp [findKeyword] at h
  | cons kw t ih =>
    rw [findKeyword] at h
    split at h
    · rename_i hcond
      injection h with h'
      injection h' with ha hb
      subst hb
      exact ⟨hcond.1, hcond.2.1⟩
    · exact ih h

theorem isPrefixOf_length_le {l₁ l₂ : List Char} (h : l₁.isPrefixOf l₂ = true) :
    l₁.length ≤ l₂.length :=
  (List.isPrefixOf_iff_prefix.mp h).length_le

theorem hlStep_inl_length {syn : EditorSyntax} {st : ScanState} {c : Char}
    {rest : List Char} {hls : List Hl} {st' : ScanState}
    (h : hlStep syn st c rest = Sum.inl (hls, st')) :
    1 ≤ hls.length ∧ hls.length ≤ rest.length + 1 := by
  rw [hlStep, hlStep.hlStepRest] at h
  split_ifs at h with hA hB hC hD hE hF hG hH hI hJ hK hL hM hN hO hP hQ <;>
    (try (rcases hs : st.inString with _ | q <;> simp only [hs] at h)) <;>
    (try split_ifs at h with hR hS) <;>
    (try simp only [Sum.inl.injEq, Prod.mk.injEq] at h) <;>
  first
  | (obtain ⟨ha, hb⟩ := h
     subst ha
     refine ⟨?_, ?_⟩ <;>
       (try simp only [List.length_replicate, List.length_cons, List.length_nil]) <;>
       (first
        | omega
        | (have q1 := List.length_pos.mpr hA.2.1
           have q2 := isPrefixOf_length_le hC
           simp only [List.length_cons] at q2
           omega)
        | (have q1 := List.length_pos.mpr hA.1
           have q2 := isPrefixOf_length_le hD
           simp only [List.length_cons] at q2
           omega)))
  | (rcases hk : findKeyword syn.keywords (c :: rest) with _ | ⟨kw2, body⟩
     · simp only [hk, Sum.inl.injEq, Prod.mk.injEq] at h
       obtain ⟨ha, hb⟩ := h
       subst ha
       simp
     · simp only [hk, Sum.inl.injEq, Prod.mk.injEq] at h
       obtain ⟨ha, hb⟩ := h
       subst ha
       have q1 := List.length_pos.mpr (findKeyword_some hk).1
       have q2 := isPrefixOf_length_le (findKeyword_some hk).2
       simp only [List.length_cons] at q2
       refine ⟨?_, ?_⟩ <;> simp only [List.length_replicate] <;> omega)
  | simp at h

theorem hlStep_inr_length {syn : EditorSyntax} {st : ScanState} {c : Char}
    {rest : List Char} {hls : List Hl}
    (h : hlStep syn st c rest = Sum.inr hls) :
    hls.length = rest.length + 1 := by
  rw [hlStep, hlStep.hlStepRest] at h
  split_ifs at h with hA hB hC hD hE hF hG hH hI hJ hK hL hM hN hO hP hQ <;>
    (try (rcases hs : st.inString with _ | q <;> simp only [hs] at h)) <;>
    (try split_ifs at h with hR hS) <;>
    (try simp only [Sum.inr.injEq] at h) <;>
  first
  | (subst h; simp)
  | (rcases hk : findKeyword syn.keywords (c :: rest) with _ | ⟨kw2, body⟩ <;>
       simp only [hk] at h <;> simp at h)
  | simp at h

theorem hlScanAux_length (syn : EditorSyntax) :
    ∀ n (st : ScanState) (l : List Char), l.length ≤ n →
      (hlScanAux syn st l).1.length = l.length := by
  intro n
  induction n with
  | zero =>
    intro st l hl
    have : l = [] := List.length_eq_zero.mp (Nat.le_zero.mp hl)
    subst this
    rw [hlScanAux]
    rfl
  | succ n ih =>
    intro st l hl
    match l with
    | [] => rw [hlScanAux]; rfl
    | c :: rest =>

      rw [hlScanAux]
      rcases hst : hlStep syn st c rest with ⟨hls, st'⟩ | hls
      · simp only
        obtain ⟨hb1, hb2⟩ := hlStep_inl_length hst
        have hdrop : (rest.drop (hls.length - 1)).length ≤ n := by
          simp only [List.length_drop]
          simp only [List.length_cons] at hl
          omega
        have := ih st' (rest.drop (hls.length - 1)) hdrop
        simp only [List.length_append, this, List.length_drop, List.length_cons]
        omega
      · simp only
        simp [hlStep_inr_length hst]

theorem hlScan_length (syn : EditorSyntax) (b : Bool) (render : List Char) :
    (hlScan syn b render).1.length = render.length :=
  hlScanAux_length syn render.length _ render (Nat.le_refl _)

/-! ### Properties of the highlight cascade -/

theorem editorUpdateSyntax_length (syn : Option EditorSyntax) :
    ∀ n (lines : List Line) (i : Nat), lines.length - i ≤ n →
      (editorUpdateSyntax syn lines i).length = lines.length := by
  intro n
  induction n with
  | zero =>
    intro lines i hn
    rw [editorUpdateSyntax]
    split
    · rfl
    · rename_i line hmem
      have hi : i < lines.length := by
        by_contra hh
        simp [List.getElem?_eq_none (Nat.le_of_not_lt hh)] at hmem
      omega
  | succ n ih =>
    intro lines i hn
    rw [editorUpdateSyntax]
    split
    · rfl
    · rename_i line hmem
      have hi : i < lines.length := by
        by_contra hh
        simp [List.getElem?_eq_none (Nat.le_of_not_lt hh)] at hmem
      split
      · simp [List.length_set]
      · rename_i s
        split
        · rw [ih _ (i + 1) (by simp only [List.length_set]; omega)]
          simp [List.length_set]
        · simp [List.length_set]

theorem editorUpdateSyntax_frame (syn : Option EditorSyntax) :
    ∀ n (lines : List Line) (i : Nat), lines.length - i ≤ n →
      ∀ j, j < i → (editorUpdateSyntax syn lines i)[j]? = lines[j]? := by
  intro n
  induction n with
  | zero =>
    intro lines i hn j hj
    rw [editorUpdateSyntax]
    split
    · rfl
    · rename_i line hmem
      have hi : i < lines.length := by
        by_contra hh
        simp [List.getElem?_eq_none (Nat.le_of_not_lt hh)] at hmem
      omega
  | succ n ih =>
    intro lines i hn j hj
    rw [editorUpdateSyntax]
    split
    · rfl
    · rename_i line hmem
      have hi : i < lines.length := by
        by_contra hh
        simp [List.getElem?_eq_none (Nat.le_of_not_lt hh)] at hmem
      split
      · exact List.getElem?_set_ne (by omega)
      · rename_i s
        split
        · rw [ih _ (i + 1) (by simp only [List.length_set]; omega) j (by omega)]
          exact List.getElem?_set_ne (by omega)
        · exact List.getElem?_set_ne (by omega)

/-- Both the raw and the render bytes of every row are untouched by the
highlight cascade: `editorUpdateSyntax` only writes `hl` and
`hl_open_comment`. -/
theorem editorUpdateSyntax_raw_render (syn : Option EditorSyntax) :
    ∀ n (lines : List Line) (i : Nat), lines.length - i ≤ n →
      ∀ j : Nat,
        ((editorUpdateSyntax syn lines i)[j]?).map Line.raw = (lines[j]?).map Line.raw ∧
        ((editorUpdateSyntax syn lines i)[j]?).map Line.render = (lines[j]?).map Line.render := by
  intro n
  induction n with
  | zero =>
    intro lines i hn j
    rw [editorUpdateSyntax]
    split
    · exact ⟨rfl, rfl⟩
    · rename_i line hmem
      have hi : i < lines.length := by
        by_contra hh
        simp [List.getElem?_eq_none (Nat.le_of_not_lt hh)] at hmem
      omega
  | succ n ih =>
    intro lines i hn j
    rw [editorUpdateSyntax]
    split
    · exact ⟨rfl, rfl⟩
    · rename_i line hmem
      have hi : i < lines.length := by
        by_contra hh
        simp [List.getElem?_eq_none (Nat.le_of_not_lt hh)] at hmem
      have key : ∀ (x : Line), x.raw = line.raw → x.render = line.render →
          ((lines.set i x)[j]?).map Line.raw = (lines[j]?).map Line.raw ∧
          ((lines.set i x)[j]?).map Line.render = (lines[j]?).map Line.render := by
        intro x hxr hxd
        by_cases hji : j = i
        · subst hji
          rw [List.getElem?_set_self hi, hmem]
          simp [hxr, hxd]
        · rw [List.getElem?_set_ne (by omega)]
          exact ⟨rfl, rfl⟩
      split
      · exact key _ rfl rfl
      · rename_i s
        split
        · have h1 := ih (lines.set i (updateSyntaxRow s (syntaxInC lines i) line)) (i + 1)
            (by simp only [List.length_set]; omega) j
          have h2 := key (updateSyntaxRow s (syntaxInC lines i) line) rfl rfl
          exact ⟨h1.1.trans h2.1, h1.2.trans h2.2⟩
        · exact key _ rfl rfl

/-- Highlight content a row can legitimately hold: the scan result for
some seed of the open-comment flag (or the cleared buffer when no syntax
rule is active). -/
def rowHl (syn : Option EditorSyntax) (b : Bool) (render : List Char) : List Hl :=
  match syn with
  | none => List.replicate render.length Hl.normal
  | some s => (hlScan s b render).1

theorem rowHl_length (syn : Option EditorSyntax) (b : Bool) (render : List Char) :
    (rowHl syn b render).length = render.length := by
  cases syn with
  | none => simp [rowHl]
  | some s => simpa [rowHl] using hlScan_length s b render

/-- Shape of every row after a highlight cascade: raw and render bytes are
unchanged, and the highlight buffer is either untouched or freshly
computed from the row's (nonempty) render bytes. -/
theorem editorUpdateSyntax_hl (syn : Option EditorSyntax) :
    ∀ n (lines : List Line) (i : Nat), lines.length - i ≤ n →
      ∀ (j : Nat) (l' : Line), (editorUpdateSyntax syn lines i)[j]? = some l' →
        ∃ l, lines[j]? = some l ∧ l'.raw = l.raw ∧ l'.render = l.render ∧
          (l'.hl = l.hl ∨ (l.render ≠ [] ∧ ∃ b : Bool, l'.hl = rowHl syn b l.render)) := by
  intro n
  induction n with
  | zero =>
    intro lines i hn j l' hj
    rw [editorUpdateSyntax] at hj
    split at hj
    · exact ⟨l', hj, rfl, rfl, Or.inl rfl⟩
    · rename_i line hmem
      have hi : i < lines.length := by
        by_contra hh
        simp [List.getElem?_eq_none (Nat.le_of_not_lt hh)] at hmem
      omega
  | succ n ih =>
    intro lines i hn j l' hj
    rw [editorUpdateSyntax] at hj
    split at hj
    · exact ⟨l', hj, rfl, rfl, Or.inl rfl⟩
    · rename_i line hmem
      have hi : i < lines.length := by
        by_contra hh
        simp [List.getElem?_eq_none (Nat.le_of_not_lt hh)] at hmem
      have hset : ∀ (x : Line), x.raw = line.raw → x.render = line.render →
          (x.hl = line.hl ∨ (line.render ≠ [] ∧ ∃ b : Bool, x.hl = rowHl syn b line.render)) →
          (lines.set i x)[j]? = some l' →
          ∃ l, lines[j]? = some l ∧ l'.raw = l.raw ∧ l'.render = l.render ∧
            (l'.hl = l.hl ∨ (l.render ≠ [] ∧ ∃ b : Bool, l'.hl = rowHl syn b l.render)) := by
        intro x hxr hxd hxhl hx
        by_cases hji : j = i
        · subst hji
          rw [List.getElem?_set_self hi] at hx
          injection hx with hx
          subst hx
          exact ⟨line, hmem, hxr, hxd, hxhl⟩
        · rw [List.getElem?_set_ne (by omega)] at hx
          exact ⟨l', hx, rfl, rfl, Or.inl rfl⟩
      split at hj
      · -- no active syntax rule
        refine hset { line with
          hl := if line.render = [] then line.hl
                else List.replicate line.render.length Hl.normal } rfl rfl ?_ hj
        by_cases hre : line.render = []
        · simp [hre]
        · exact Or.inr ⟨hre, true, by simp [hre, rowHl]⟩
      · rename_i s
        split at hj
        · -- flag changed: the cascade visits the next row
          obtain ⟨l₁, h₁, hr₁, hd₁, hh₁⟩ :=
            ih _ (i + 1) (by simp only [List.length_set]; omega) j l' hj
          by_cases hji : j = i
          · subst hji
            rw [List.getElem?_set_self hi] at h₁
            injection h₁ with h₁
            subst h₁
            refine ⟨line, hmem, ?_, ?_, ?_⟩
            · simpa [updateSyntaxRow] using hr₁
            · simpa [updateSyntaxRow] using hd₁
            · rcases hh₁ with hcopy | ⟨hne, b, hb⟩
              · by_cases hre : line.render = []
                · exact Or.inl (by simpa [updateSyntaxRow, hre] using hcopy)
                · exact Or.inr ⟨hre, syntaxInC lines j,
                    by simpa [updateSyntaxRow, hre, rowHl] using hcopy⟩
              · refine Or.inr ⟨?_, b, ?_⟩
                · simpa [updateSyntaxRow] using hne
                · simpa [updateSyntaxRow] using hb
          · rw [List.getElem?_set_ne (by omega)] at h₁
            exact ⟨l₁, h₁, hr₁, hd₁, hh₁⟩
        · refine hset (updateSyntaxRow s (syntaxInC lines i) line) rfl rfl ?_ hj
          by_cases hre : line.render = []
          · simp [updateSyntaxRow, hre]
          · exact Or.inr ⟨hre, syntaxInC lines i, by simp [updateSyntaxRow, hre, rowHl]⟩

/-- Characterization of the row on which `editorUpdateSyntax` is invoked:
its raw and render bytes are untouched; its highlight buffer is left alone
when the render bytes are empty (the C code skips the realloc and the scan
loop has no iterations) and otherwise holds exactly the scan result. -/
theorem editorUpdateSyntax_self (syn : Option EditorSyntax) (lines : List Line) (i : Nat)
    (line : Line) (hmem : lines[i]? = some line) :
    ∃ l', (editorUpdateSyntax syn lines i)[i]? = some l' ∧
      l'.raw = line.raw ∧ l'.render = line.render ∧
      ((line.render = [] ∧ l'.hl = line.hl) ∨
        (line.render ≠ [] ∧ ∃ b : Bool, l'.hl = rowHl syn b line.render)) := by
  have hi : i < lines.length := by
    by_contra hh
    simp [List.getElem?_eq_none (Nat.le_of_not_lt hh)] at hmem
  rw [editorUpdateSyntax]
  split
  · rename_i hnone
    rw [hmem] at hnone
    cases hnone
  · rename_i line' hmem'
    rw [hmem] at hmem'
    injection hmem' with hmem'
    subst hmem'
    split
    · refine ⟨_, List.getElem?_set_self hi, rfl, rfl, ?_⟩
      by_cases hre : line.render = []
      · exact Or.inl ⟨hre, by simp [hre]⟩
      · exact Or.inr ⟨hre, true, by simp [hre, rowHl]⟩
    · rename_i s
      split
      · refine ⟨updateSyntaxRow s (syntaxInC lines i) line, ?_, rfl, rfl, ?_⟩
        · rw [editorUpdateSyntax_frame (some s)
            ((lines.set i (updateSyntaxRow s (syntaxInC lines i) line)).length)
            _ (i + 1) (by omega) i (by omega)]
          exact List.getElem?_set_self hi
        · by_cases hre : line.render = []
          · exact Or.inl ⟨hre, by simp [updateSyntaxRow, hre]⟩
          · exact Or.inr ⟨hre, syntaxInC lines i, by simp [updateSyntaxRow, hre, rowHl]⟩
      · refine ⟨updateSyntaxRow s (syntaxInC lines i) line, List.getElem?_set_self hi, rfl, rfl, ?_⟩
        by_cases hre : line.render = []
        · exact Or.inl ⟨hre, by simp [updateSyntaxRow, hre]⟩
        · exact Or.inr ⟨hre, syntaxInC lines i, by simp [updateSyntaxRow, hre, rowHl]⟩

/-! ### Render and highlight freshness -/

/-- Freshness of one row: the render bytes are exactly the derivation from
the current raw bytes, and — whenever the render bytes are nonempty — the
highlight buffer has exactly one entry per render byte and is the scan
result of the current render bytes (for some seed of the open-comment
flag), i.e. it is not stale. -/
def lineFresh (syn : Option EditorSyntax) (l : Line) : Prop :=
  l.render = renderOfRaw l.raw ∧
  (l.render ≠ [] → l.hl.length = l.render.length ∧ ∃ b : Bool, l.hl = rowHl syn b l.render)

/-- Document-wide freshness. -/
def docInv (syn : Option EditorSyntax) (lines : List Line) : Prop :=
  ∀ (j : Nat) (l : Line), lines[j]? = some l → lineFresh syn l

theorem getElem?_insertIdx_lt {α : Type} :
    ∀ (l : List α) (x : α) (n j : Nat), j < n → (l.insertIdx n x)[j]? = l[j]? := by
  intro l x n
  induction n generalizing l with
  | zero => intro j hj; omega
  | succ n ihn =>
    intro j hj
    cases l with
    | nil => simp
    | cons h t =>
      cases j with
      | zero => simp
      | succ j => simpa using ihn t j (by omega)

theorem getElem?_insertIdx_gt {α : Type} :
    ∀ (l : List α) (x : α) (n j : Nat), n < j → (l.insertIdx n x)[j]? = l[j - 1]? := by
  intro l x n
  induction n generalizing l with
  | zero =>
    intro j hj
    obtain ⟨j', rfl⟩ : ∃ j', j = j' + 1 := ⟨j - 1, by omega⟩
    simp
  | succ n ihn =>
    intro j hj
    obtain ⟨j', rfl⟩ : ∃ j', j = j' + 1 := ⟨j - 1, by omega⟩
    cases l with
    | nil => simp
    | cons h t =>
      have hj' : n < j' := by omega
      obtain ⟨j'', rfl⟩ : ∃ j'', j' = j'' + 1 := ⟨j' - 1, by omega⟩
      simpa using ihn t (j'' + 1) (by omega)

theorem getElem?_eraseIdx_lt {α : Type} :
    ∀ (l : List α) (n j : Nat), j < n → (l.eraseIdx n)[j]? = l[j]? := by
  intro l
  induction l with
  | nil => intro n j hj; simp [List.eraseIdx]
  | cons h t ih =>
    intro n j hj
    obtain ⟨n', rfl⟩ : ∃ n', n = n' + 1 := ⟨n - 1, by omega⟩
    cases j with
    | zero => simp [List.eraseIdx]
    | succ j => simpa [List.eraseIdx] using ih n' j (by omega)

theorem getElem?_eraseIdx_ge {α : Type} :
    ∀ (l : List α) (n j : Nat), n ≤ j → (l.eraseIdx n)[j]? = l[j + 1]? := by
  intro l
  induction l with
  | nil => intro n j hj; simp [List.eraseIdx]
  | cons h t ih =>
    intro n j hj
    cases n with
    | zero => simp [List.eraseIdx]
    | succ n =>
      obtain ⟨j', rfl⟩ : ∃ j', j = j' + 1 := ⟨j - 1, by omega⟩
      simpa [List.eraseIdx] using ih n j' (by omega)

/-- Central freshness lemma: running `editorUpdateRow` on row `i` makes the
whole document fresh again, provided every other row already was (row `i`
itself may be arbitrarily stale — the operation rebuilds it). -/
theorem editorUpdateRow_inv (syn : Option EditorSyntax) (lines : List Line) (i : Nat)
    (h : ∀ (j : Nat) (l : Line), j ≠ i → lines[j]? = some l → lineFresh syn l) :
    docInv syn (editorUpdateRow syn lines i) := by
  rw [editorUpdateRow]
  split
  · rename_i hnone
    intro j l hj
    rcases eq_or_ne j i with rfl | hne
    · rw [hnone] at hj; cases hj
    · exact h j l hne hj
  · rename_i line hmem
    have hi : i < lines.length := by
      by_contra hh
      simp [List.getElem?_eq_none (Nat.le_of_not_lt hh)] at hmem
    intro j l' hj
    rcases eq_or_ne j i with rfl | hne
    · obtain ⟨l'', h'', hraw, hrend, hcases⟩ := editorUpdateSyntax_self syn
        (lines.set j { line with render := renderOfRaw line.raw }) j
        { line with render := renderOfRaw line.raw }
        (List.getElem?_set_self (by simpa using hi))
      rw [hj] at h''
      injection h'' with h''
      subst h''
      constructor
      · rw [hrend, hraw]
      · intro hne'
        rcases hcases with ⟨hempty, -⟩ | ⟨-, b, hb⟩
        · exact absurd (hrend.trans hempty) hne'
        · rw [hb, hrend]
          exact ⟨rowHl_length syn b _, b, rfl⟩
    · obtain ⟨l₀, h₀, hraw, hrend, hdisj⟩ := editorUpdateSyntax_hl syn
        ((lines.set i { line with render := renderOfRaw line.raw }).length)
        (lines.set i { line with render := renderOfRaw line.raw }) i
        (by omega) j l' hj
      rw [List.getElem?_set_ne (by omega)] at h₀
      have hf := h j l₀ hne h₀
      constructor
      · rw [hrend, hraw, hf.1]
      · intro hnem
        have hnem₀ : l₀.render ≠ [] := by rw [← hrend]; exact hnem
        rcases hdisj with hcopy | ⟨hne2, b, hb⟩
        · obtain ⟨hlen, b, hb⟩ := hf.2 hnem₀
          exact ⟨by rw [hcopy, hrend, hlen], b, by rw [hcopy, hrend]; exact hb⟩
        · exact ⟨by rw [hb, hrend, rowHl_length], b, by rw [hb, hrend]⟩

theorem editorInsertRow_inv (st : EditorState) (at0 : Nat) (s : List Char)
    (hinv : docInv st.esyn st.lines) :
    docInv st.esyn (editorInsertRow st at0 s).lines := by
  apply editorUpdateRow_inv
  intro j l hne hj
  rcases Nat.lt_or_ge j at0 with hlt | hge
  · rw [getElem?_insertIdx_lt _ _ _ _ hlt] at hj
    exact hinv j l hj
  · have hgt : at0 < j := by omega
    rw [getElem?_insertIdx_gt _ _ _ _ hgt] at hj
    exact hinv (j - 1) l hj

theorem editorRowAppendString_esyn (st : EditorState) (i : Nat) (s : List Char) :
    (editorRowAppendString st i s).esyn = st.esyn := by
  rw [editorRowAppendString]
  split
  · rfl
  · split <;> rfl

theorem editorDelRow_inv (st : EditorState) (at0 : Nat)
    (hinv : docInv st.esyn st.lines) :
    docInv st.esyn (editorDelRow st at0).lines := by
  rw [editorDelRow]
  split
  · intro j l hj
    rcases Nat.lt_or_ge j at0 with hlt | hge
    · rw [getElem?_eraseIdx_lt _ _ _ hlt] at hj
      exact hinv j l hj
    · rw [getElem?_eraseIdx_ge _ _ _ hge] at hj
      exact hinv (j + 1) l hj
  · exact hinv

theorem editorRowInsertChar_inv (st : EditorState) (i at0 : Nat) (c : Char)
    (hinv : docInv st.esyn st.lines) :
    docInv st.esyn (editorRowInsertChar st i at0 c).lines := by
  rw [editorRowInsertChar]
  split
  · exact hinv
  · apply editorUpdateRow_inv
    intro j l hne hj
    rw [List.getElem?_set_ne (by omega)] at hj
    exact hinv j l hj

theorem editorRowAppendString_inv (st : EditorState) (i : Nat) (s : List Char)
    (hinv : docInv st.esyn st.lines) :
    docInv st.esyn (editorRowAppendString st i s).lines := by
  rw [editorRowAppendString]
  split
  · exact hinv
  · split
    · exact hinv
    · apply editorUpdateRow_inv
      intro j l hne hj
      rw [List.getElem?_set_ne (by omega)] at hj
      exact hinv j l hj

theorem editorRowDelChar_inv (st : EditorState) (i at0 : Nat)
    (hinv : docInv st.esyn st.lines) :
    docInv st.esyn (editorRowDelChar st i at0).lines := by
  rw [editorRowDelChar]
  split
  · exact hinv
  · split
    · apply editorUpdateRow_inv
      intro j l hne hj
      rw [List.getElem?_set_ne (by omega)] at hj
      exact hinv j l hj
    · exact hinv

theorem editorInsertChar_inv (st : EditorState) (c : Char)
    (hinv : docInv st.esyn st.lines) :
    docInv st.esyn (editorInsertChar st c).lines := by
  rw [editorInsertChar]
  split
  · exact editorRowInsertChar_inv _ _ _ _ (editorInsertRow_inv st st.cy [] hinv)
  · exact editorRowInsertChar_inv _ _ _ _ hinv

theorem editorInsertNewline_inv (st : EditorState)
    (hinv : docInv st.esyn st.lines) :
    docInv st.esyn (editorInsertNewline st).lines := by
  show docInv st.esyn (editorInsertNewlineGo st).lines
  rw [editorInsertNewlineGo]
  split
  · split
    · exact hinv
    · rename_i line hmem
      split
      · exact editorInsertRow_inv st (st.cy + 1) (line.raw.drop st.cx) hinv
      · rename_i line1 hmem1
        apply editorUpdateRow_inv
        intro j l hne hj
        rw [List.getElem?_set_ne (by omega)] at hj
        exact editorInsertRow_inv st (st.cy + 1) (line.raw.drop st.cx) hinv j l hj
  · exact editorInsertRow_inv st st.cy [] hinv

theorem editorDelChar_inv (st : EditorState)
    (hinv : docInv st.esyn st.lines) :
    docInv st.esyn (editorDelChar st).lines := by
  rw [editorDelChar]
  split
  · split
    · exact hinv
    · rename_i line hmem
      split
      · exact editorRowDelChar_inv _ _ _ hinv
      · split
        · have h1 := editorRowAppendString_inv
            { st with
              cy := st.cy - 1,
              cx := ((st.lines[st.cy - 1]?).map (fun l => l.raw.length)).getD 0 }
            (st.cy - 1) line.raw hinv
          have h2 := editorDelRow_inv
            (editorRowAppendString
              { st with
                cy := st.cy - 1,
                cx := ((st.lines[st.cy - 1]?).map (fun l => l.raw.length)).getD 0 }
              (st.cy - 1) line.raw) st.cy
            (by rw [editorRowAppendString_esyn]; exact h1)
          rw [editorRowAppendString_esyn] at h2
          exact h2
        · exact hinv
  · exact hinv

theorem editorUpdateRow_none (syn : Option EditorSyntax) (lines : List Line) (i : Nat)
    (h : lines[i]? = none) : editorUpdateRow syn lines i = lines := by
  rw [editorUpdateRow, h]

/-- Characterization of the row `editorUpdateRow` is invoked on: its raw
bytes are unchanged and its render bytes become the derivation from them. -/
theorem editorUpdateRow_self (syn : Option EditorSyntax) (lines : List Line) (i : Nat)
    (l : Line) (hmem : lines[i]? = some l) :
    ∃ l1, (editorUpdateRow syn lines i)[i]? = some l1 ∧ l1.raw = l.raw ∧
      l1.render = renderOfRaw l.raw := by
  have hi : i < lines.length := by
    by_contra hh
    simp [List.getElem?_eq_none (Nat.le_of_not_lt hh)] at hmem
  rw [editorUpdateRow]
  split
  · rename_i hnone
    rw [hmem] at hnone
    cases hnone
  · rename_i l' hm'
    rw [hmem] at hm'
    injection hm' with hm'
    subst hm'
    obtain ⟨l1, h1, hraw, hrend, -⟩ := editorUpdateSyntax_self syn
      (lines.set i { l with render := renderOfRaw l.raw }) i
      { l with render := renderOfRaw l.raw }
      (List.getElem?_set_self (by simpa using hi))
    exact ⟨l1, h1, hraw, hrend⟩

theorem editorUpdateRow_raw (syn : Option EditorSyntax) (lines : List Line) (i : Nat) :
    ∀ j : Nat, ((editorUpdateRow syn lines i)[j]?).map Line.raw = (lines[j]?).map Line.raw := by
  intro j
  rw [editorUpdateRow]
  split
  · rfl
  · rename_i line hmem
    have hi : i < lines.length := by
      by_contra hh
      simp [List.getElem?_eq_none (Nat.le_of_not_lt hh)] at hmem
    rw [(editorUpdateSyntax_raw_render syn
      ((lines.set i { line with render := renderOfRaw line.raw }).length)
      (lines.set i { line with render := renderOfRaw line.raw }) i (by omega) j).1]
    by_cases hji : j = i
    · subst hji
      rw [List.getElem?_set_self (by simpa using hi), hmem]
      rfl
    · rw [List.getElem?_set_ne (by omega)]

theorem editorUpdateRow_render_ne (syn : Option EditorSyntax) (lines : List Line) (i j : Nat)
    (hne : j ≠ i) :
    ((editorUpdateRow syn lines i)[j]?).map Line.render = (lines[j]?).map Line.render := by
  rw [editorUpdateRow]
  split
  · rfl
  · rename_i line hmem
    have hi : i < lines.length := by
      by_contra hh
      simp [List.getElem?_eq_none (Nat.le_of_not_lt hh)] at hmem
    rw [(editorUpdateSyntax_raw_render syn
      ((lines.set i { line with render := renderOfRaw line.raw }).length)
      (lines.set i { line with render := renderOfRaw line.raw }) i (by omega) j).2]
    rw [List.getElem?_set_ne (by omega)]

/-- Claim C2 (amended.)  After each document mutation — row insertion, row
deletion, character insertion, string append, character deletion,
character insertion at the cursor, newline split and backward delete
(including the row merge) — every row of the document is fresh: its
render bytes are derived from its current raw bytes and, whenever the
render bytes are nonempty, the highlight buffer has exactly one entry per
render byte and equals the scan of the current render bytes.  (The
original claim also asserted `len(render) == len(highlight)` for rows
whose render bytes become empty; the code leaves the previous highlight
buffer in place there — see the counterexample.) -/
theorem c2_mutations_keep_rows_fresh (st : EditorState)
    (hinv : docInv st.esyn st.lines) :
    (∀ (at0 : Nat) (s : List Char), docInv st.esyn (editorInsertRow st at0 s).lines) ∧
    (∀ at0 : Nat, docInv st.esyn (editorDelRow st at0).lines) ∧
    (∀ (i at0 : Nat) (c : Char), docInv st.esyn (editorRowInsertChar st i at0 c).lines) ∧
    (∀ (i : Nat) (s : List Char), docInv st.esyn (editorRowAppendString st i s).lines) ∧
    (∀ i at0 : Nat, docInv st.esyn (editorRowDelChar st i at0).lines) ∧
    (∀ c : Char, docInv st.esyn (editorInsertChar st c).lines) ∧
    docInv st.esyn (editorInsertNewline st).lines ∧
    docInv st.esyn (editorDelChar st).lines :=
  ⟨fun at0 s => editorInsertRow_inv st at0 s hinv,
   fun at0 => editorDelRow_inv st at0 hinv,
   fun i at0 c => editorRowInsertChar_inv st i at0 c hinv,
   fun i s => editorRowAppendString_inv st i s hinv,
   fun i at0 => editorRowDelChar_inv st i at0 hinv,
   fun c => editorInsertChar_inv st c hinv,
   editorInsertNewline_inv st hinv,
   editorDelChar_inv st hinv⟩

theorem c2_witness :
    docInv none ([] : List Line) ∧
    docInv none (editorInsertRow
      { esyn := none, lines := [], cx := 0, cy := 0, dirty := 0 } 0 ['a']).lines := by
  have h0 : docInv none ([] : List Line) := by
    intro j l hj
    simp at hj
  exact ⟨h0, (c2_mutations_keep_rows_fresh
    { esyn := none, lines := [], cx := 0, cy := 0, dirty := 0 } h0).1 0 ['a']⟩

/-- Claim C2, as stated, is false: deleting the only byte of a one-byte row
leaves the row with empty render bytes while the highlight buffer keeps
its previous single entry, so `len(render) == len(highlight)` fails after
this mutation. -/
theorem c2_counterexample :
    ((editorRowDelChar
      (editorInsertRow { esyn := none, lines := [], cx := 0, cy := 0, dirty := 0 } 0 ['a'])
      0 0).lines.map (fun l => (l.render.length, l.hl.length))) = [(0, 1)] ∧ (0 : Nat) ≠ 1 := by
  constructor
  · simp [editorRowDelChar, editorInsertRow, editorUpdateRow, editorUpdateSyntax,
      renderOfRaw, editorUpdateRowGo, List.insertIdx, List.set, List.eraseIdx,
      List.getElem?_cons_zero, List.getElem?_cons_succ]
  · decide

/-- Claim C3: the render derivation is idempotent.  Running
`editorUpdateRow` twice on row `i` with the raw bytes unchanged in between
produces exactly the render bytes of a single run — for the updated row
and for every other row of the document. -/
theorem c3_editorUpdateRow_idempotent (syn : Option EditorSyntax) (lines : List Line)
    (i : Nat) : ∀ j : Nat,
    ((editorUpdateRow syn (editorUpdateRow syn lines i) i)[j]?).map Line.render =
      ((editorUpdateRow syn lines i)[j]?).map Line.render := by
  intro j
  rcases hm1 : (editorUpdateRow syn lines i)[i]? with _ | l1
  · rw [editorUpdateRow_none syn _ i hm1]
  · rcases hm0 : lines[i]? with _ | l0
    · rw [editorUpdateRow_none syn lines i hm0] at hm1
      rw [hm0] at hm1
      cases hm1
    · obtain ⟨l1', hm1', hraw1, hrend1⟩ := editorUpdateRow_self syn lines i l0 hm0
      rw [hm1] at hm1'
      injection hm1' with hm1'
      subst hm1'
      by_cases hji : j = i
      · subst hji
        obtain ⟨l2, hm2, hraw2, hrend2⟩ :=
          editorUpdateRow_self syn (editorUpdateRow syn lines j) j l1 hm1
        rw [hm2, hm1]
        simp only [Option.map]
        rw [hrend2, hrend1, hraw1]
      · rw [editorUpdateRow_render_ne syn _ i j hji]

/-! ### Tab expansion -/

theorem emitTab_eq_aux : ∀ (k r : Nat), 8 - r % 8 ≤ k →
    emitTab r = (List.replicate (8 - r % 8) ' ', r + (8 - r % 8)) := by
  intro k
  induction k with
  | zero =>
    intro r hr
    omega
  | succ k ih =>
    intro r hr
    rw [emitTab]
    split
    · rename_i h0
      have h7 : r % 8 = 7 := by omega
      simp only [h7]
      constructor
    · rename_i h0
      have h1 : (r + 1) % 8 = r % 8 + 1 := by omega
      rw [ih (r + 1) (by omega)]
      simp only [h1, Prod.mk.injEq]
      have h2 : 8 - r % 8 = (8 - (r % 8 + 1)) + 1 := by omega
      rw [h2, List.replicate_succ]
      exact ⟨rfl, by omega⟩

theorem emitTab_spec (r : Nat) :
    emitTab r = (List.replicate (8 - r % 8) ' ', r + (8 - r % 8)) :=
  emitTab_eq_aux (8 - r % 8) r (Nat.le_refl _)

theorem editorUpdateRowGo_eq_renderSpec :
    ∀ (raw : List Char) (r : Nat), editorUpdateRowGo r raw = renderSpec r raw := by
  intro raw
  induction raw with
  | nil => intro r; rfl
  | cons c rest ih =>
    intro r
    rw [editorUpdateRowGo, renderSpec]
    by_cases hc : c = '\t'
    · simp only [if_pos hc, emitTab_spec]
      have h1 : nextTabStop r - r = 8 - r % 8 := by
        simp only [nextTabStop]
        omega
      have h2 : nextTabStop r = r + (8 - r % 8) := rfl
      rw [h1, h2, ih]
    · simp only [if_neg hc]
      rw [ih]

/-- Claim C6: render derivation expands every tab byte at visual column `v`
to the spaces needed to reach the next multiple of the tab stop (at least
one and at most eight, e.g. a tab at column 5 advances to column 8 and a
tab at column 8 advances to column 16) and copies every non-tab byte
unchanged, advancing the column by one — `renderOfRaw`, the embedding of
the render loop of `editorUpdateRow`, coincides with the specification's
column-based description `renderSpec`. -/
theorem c6_render_tab_expansion :
    (∀ raw : List Char, renderOfRaw raw = renderSpec 0 raw) ∧
    (∀ v : Nat, v < nextTabStop v ∧ nextTabStop v ≤ v + 8 ∧ nextTabStop v % 8 = 0) ∧
    nextTabStop 5 = 8 ∧ nextTabStop 8 = 16 := by
  refine ⟨fun raw => editorUpdateRowGo_eq_renderSpec raw 0, fun v => ?_, by decide, by decide⟩
  simp only [nextTabStop]
  omega

/-! ### Single-line comments -/

/-- Claim C4 (amended): when the scanner reaches a position whose remaining
render bytes start with the single-line comment token while not inside a
string and not inside a multi-line comment, every remaining byte of the
row is classified as comment and the scan of the row stops with the
open-comment flag clear.  (The original claim asserted this for every
occurrence of the token, including occurrences inside string literals —
see the counterexample.) -/
theorem c4_single_line_comment (st : ScanState) (l : List Char)
    (h1 : st.inString = none) (h2 : st.inComment = false)
    (h3 : cSyntax.singlelineComment.isPrefixOf l = true) :
    hlScanAux cSyntax st l = (List.replicate l.length Hl.comment, false) := by
  obtain ⟨t, ht⟩ := List.isPrefixOf_iff_prefix.mp h3
  subst ht
  show hlScanAux cSyntax st ('/' :: '/' :: t) = _
  rw [hlScanAux]
  have hstep : hlStep cSyntax st '/' ('/' :: t) =
      Sum.inr (List.replicate (('/' : Char) :: '/' :: t).length Hl.comment) := by
    rw [hlStep, hlStep.hlStepRest]
    simp [cSyntax, h1, h2, List.isPrefixOf]
  rw [hstep]
  simp [h2, cSyntax]

/-- Claim C4, as stated, is false: in the row with raw bytes `"//"a` the
single-line comment token occurs at position 1, inside a string literal;
after loading this row into a document with the C syntax rules, byte 4 is
classified `normal`, not comment. -/
theorem c4_counterexample :
    ((editorInsertRow { esyn := some cSyntax, lines := [], cx := 0, cy := 0, dirty := 0 }
        0 ['"', '/', '/', '"', 'a']).lines.map Line.hl) =
      [[Hl.hlstring, Hl.hlstring, Hl.hlstring, Hl.hlstring, Hl.normal]] ∧
    occurs cSyntax.singlelineComment ['"', '/', '/', '"', 'a'] = true ∧
    Hl.normal ≠ Hl.comment ∧ Hl.normal ≠ Hl.mlcomment := by
  refine ⟨?_, by decide, by decide, by decide⟩
  simp [editorInsertRow, editorUpdateRow, editorUpdateSyntax, renderOfRaw,
    editorUpdateRowGo, List.insertIdx, hlScan, hlScanAux, hlStep, hlStep.hlStepRest,
    findKeyword, kwBody, cSyntax, is_separator, syntaxInC, updateSyntaxRow]

theorem c4_witness :
    hlScanAux cSyntax
      { prevHl := Hl.normal, prevSep := true, inString := none
      , inComment := false, escape := false } ['/', '/', 'x'] =
      (List.replicate 3 Hl.comment, false) :=
  c4_single_line_comment _ _ rfl rfl (by decide)

/-! ### Search wrap-around (claim C8) -/

/-- Claim C8: with rows "apple", "banana", "apple" (built through
`editorInsertRow`, so the render bytes equal the raw bytes), repeated
forward search for "apple" starting from the no-prior-match sentinel
visits row 0, then row 2, then wraps to row 0 again; a reverse search
whose last match is row 0 visits row 2. -/
theorem c8_search_wraps :
    ((editorInsertRow (editorInsertRow (editorInsertRow
        { esyn := none, lines := [], cx := 0, cy := 0, dirty := 0 }
        0 ['a', 'p', 'p', 'l', 'e']) 1 ['b', 'a', 'n', 'a', 'n', 'a'])
        2 ['a', 'p', 'p', 'l', 'e']).lines.map Line.render) =
      [['a', 'p', 'p', 'l', 'e'], ['b', 'a', 'n', 'a', 'n', 'a'], ['a', 'p', 'p', 'l', 'e']] ∧
    editorFindScan [['a', 'p', 'p', 'l', 'e'], ['b', 'a', 'n', 'a', 'n', 'a'],
      ['a', 'p', 'p', 'l', 'e']] ['a', 'p', 'p', 'l', 'e'] noLastMatch 1 = some 0 ∧
    editorFindScan [['a', 'p', 'p', 'l', 'e'], ['b', 'a', 'n', 'a', 'n', 'a'],
      ['a', 'p', 'p', 'l', 'e']] ['a', 'p', 'p', 'l', 'e'] 0 1 = some 2 ∧
    editorFindScan [['a', 'p', 'p', 'l', 'e'], ['b', 'a', 'n', 'a', 'n', 'a'],
      ['a', 'p', 'p', 'l', 'e']] ['a', 'p', 'p', 'l', 'e'] 2 1 = some 0 ∧
    editorFindScan [['a', 'p', 'p', 'l', 'e'], ['b', 'a', 'n', 'a', 'n', 'a'],
      ['a', 'p', 'p', 'l', 'e']] ['a', 'p', 'p', 'l', 'e'] 0 (-1) = some 2 := by
  refine ⟨?_, by decide, by decide, by decide, by decide⟩
  simp [editorInsertRow, editorUpdateRow, editorUpdateSyntax, renderOfRaw,
    editorUpdateRowGo, List.insertIdx]

/-! ### Saving (claim C9) -/

theorem editorSaveLoop_success : ∀ (results : List (Option Nat)) (len : Nat),
    (∀ r ∈ results, r.isSome = true) → (results.filterMap id).sum ≥ len →
    editorSaveLoop results len = (0, false) := by
  intro results
  induction results with
  | nil =>
    intro len hall hsum
    have : len = 0 := by simpa using hsum
    subst this
    rfl
  | cons r rs ih =>
    intro len hall hsum
    cases len with
    | zero => rfl
    | succ len =>
      rcases r with _ | w
      · exact absurd (hall none (by simp)) (by simp)
      · rw [editorSaveLoop]
        refine ih (len + 1 - w) (fun x hx => hall x (by simp [hx])) ?_
        simp only [List.filterMap_cons, id, List.sum_cons] at hsum ⊢
        omega

theorem editorSaveLoop_error : ∀ (results : List (Option Nat)) (len : Nat),
    (editorSaveLoop results len).2 = true → 0 < (editorSaveLoop results len).1 := by
  intro results
  induction results with
  | nil =>
    intro len h
    cases len with
    | zero => simp [editorSaveLoop] at h
    | succ len => simp [editorSaveLoop] at h
  | cons r rs ih =>
    intro len h
    cases len with
    | zero => simp [editorSaveLoop] at h
    | succ len =>
      rcases r with _ | w
      · simp [editorSaveLoop]
      · rw [editorSaveLoop] at h ⊢
        exact ih (len + 1 - w) h

/-- Claim C9 (amended): when every write call succeeds and together the
writes cover every byte of the serialized document, `editorSave` ends with
the dirty counter reset to zero and no error reported; when a write call
fails, the save stops with the error reported and the dirty counter is
set to the number of not-yet-written bytes — a nonzero value, so the
editor still reports unsaved changes, but it is the remaining byte count,
not the pre-save dirty value (see the counterexample). -/
theorem c9_save_dirty (lines : List Line) (results : List (Option Nat)) :
    ((∀ r ∈ results, r.isSome = true) →
      (results.filterMap id).sum ≥ (editorRowsToString lines).length →
      editorSaveModel lines results = (0, false)) ∧
    ((editorSaveModel lines results).2 = true → 0 < (editorSaveModel lines results).1) :=
  ⟨fun hall hsum => editorSaveLoop_success results _ hall hsum,
   fun herr => editorSaveLoop_error results _ herr⟩

/-- Claim C9, as stated, is false in its error half: saving the document
with the single row "abc" (serialized as four bytes) where the first
write puts one byte and the second write fails leaves the dirty counter
at 3, the number of unwritten bytes — not at the pre-save dirty value
(e.g. 5); only the nonzero-ness of the dirty state is preserved. -/
theorem c9_counterexample :
    editorSaveModel [{ raw := ['a', 'b', 'c'], render := [], hl := [], hlOpenComment := false }]
      [some 1, none] = (3, true) ∧ (3 : Nat) ≠ 5 := by
  constructor
  · rfl
  · decide

theorem c9_witness :
    editorSaveModel [{ raw := ['a'], render := ['a'], hl := [], hlOpenComment := false }]
      [some 2] = (0, false) :=
  (c9_save_dirty [{ raw := ['a'], render := ['a'], hl := [], hlOpenComment := false }]
    [some 2]).1 (by decide) (by decide)

/-! ### File loading (claim C10) -/

theorem takeLine_no_newline : ∀ (l : List Char), '\n' ∉ l → takeLine l = (l, []) := by
  intro l hl
  induction l with
  | nil => rfl
  | cons c rest ih =>
    rw [takeLine]
    have hc : ¬ c = '\n' := fun h => hl (h ▸ List.mem_cons_self c rest)
    rw [if_neg hc]
    have : takeLine rest = (rest, []) := ih (fun h => hl (List.mem_cons_of_mem c h))
    rw [this]

theorem takeLine_append : ∀ (s t : List Char), '\n' ∈ s →
    takeLine (s ++ t) = ((takeLine s).1, (takeLine s).2 ++ t) := by
  intro s
  induction s with
  | nil => intro t h; cases h
  | cons c rest ih =>
    intro t h
    by_cases hc : c = '\n'
    · subst hc
      rw [List.cons_append, takeLine, if_pos rfl, takeLine, if_pos rfl]
    · have hmem : '\n' ∈ rest := by
        rcases List.mem_cons.mp h with h' | h'
        · exact absurd h'.symm hc
        · exact h'
      rw [List.cons_append, takeLine, if_neg hc, takeLine, if_neg hc, ih t hmem]

theorem takeLine_eq : ∀ (l : List Char), (takeLine l).1 ++ (takeLine l).2 = l := by
  intro l
  induction l with
  | nil => rfl
  | cons c rest ih =>
    rw [takeLine]
    by_cases hc : c = '\n'
    · rw [if_pos hc]; subst hc; rfl
    · rw [if_neg hc]
      simpa using ih

theorem editorOpenRows_single (fin : List Char) (hne : fin ≠ [])
    (hnl : '\n' ∉ fin) : editorOpenRows fin = [stripLine fin] := by
  have h0 : editorOpenRows ([] : List Char) = [] := by rw [editorOpenRows]
  rcases fin with _ | ⟨c, rest⟩
  · exact absurd rfl hne
  · rw [editorOpenRows, takeLine_no_newline _ hnl]
    show stripLine (c :: rest) :: editorOpenRows [] = [stripLine (c :: rest)]
    rw [h0]

theorem editorOpenRows_split : ∀ (n : Nat) (init fin : List Char), init.length ≤ n →
    fin ≠ [] → '\n' ∉ fin → (init = [] ∨ ∃ p, init = p ++ ['\n']) →
    editorOpenRows (init ++ fin) = editorOpenRows init ++ [stripLine fin] := by
  intro n
  induction n with
  | zero =>
    intro init fin hlen hne hnl _
    have : init = [] := List.eq_nil_of_length_eq_zero (Nat.le_zero.mp hlen)
    subst this
    have h0 : editorOpenRows ([] : List Char) = [] := by rw [editorOpenRows]
    rw [List.nil_append, editorOpenRows_single fin hne hnl, h0, List.nil_append]
  | succ n ih =>
    intro init fin hlen hne hnl hinit
    rcases hinit with hinit | ⟨p, hinit⟩
    · subst hinit
      have h0 : editorOpenRows ([] : List Char) = [] := by rw [editorOpenRows]
      rw [List.nil_append, editorOpenRows_single fin hne hnl, h0, List.nil_append]
    · rcases init with _ | ⟨c, rest⟩
      · exact absurd hinit.symm (by simp)
      · have hmem : '\n' ∈ c :: rest := by
          rw [hinit]
          exact List.mem_append.mpr (Or.inr (List.mem_cons_self _ _))
        have hsplit := takeLine_append (c :: rest) fin hmem
        have hLHS : editorOpenRows ((c :: rest) ++ fin) =
            stripLine (takeLine (c :: rest)).1 ::
              editorOpenRows ((takeLine (c :: rest)).2 ++ fin) := by
          rw [List.cons_append, editorOpenRows, ← List.cons_append, hsplit]
        have hRHS : editorOpenRows (c :: rest) =
            stripLine (takeLine (c :: rest)).1 :: editorOpenRows (takeLine (c :: rest)).2 := by
          rw [editorOpenRows]
        rw [hLHS, hRHS, List.cons_append]
        congr 1
        have hlen2 : (takeLine (c :: rest)).2.length ≤ n := by
          have := takeLine_snd_length (c :: rest) (by simp)
          simp only [List.length_cons] at hlen this ⊢
          omega
        refine ih (takeLine (c :: rest)).2 fin hlen2 hne hnl ?_
        rcases List.eq_nil_or_concat (takeLine (c :: rest)).2 with h2 | ⟨q, b, h2⟩
        · exact Or.inl h2
        · refine Or.inr ⟨q, ?_⟩
          rw [List.concat_eq_append] at h2
          have heq : (takeLine (c :: rest)).1 ++ (takeLine (c :: rest)).2 = p ++ ['\n'] := by
            rw [takeLine_eq (c :: rest), hinit]
          have hb : (p ++ ['\n']).getLast? = some b := by
            rw [← heq, h2, ← List.append_assoc]
            exact List.getLast?_concat _
          rw [List.getLast?_concat] at hb
          injection hb with hb
          rw [h2, hb]

/-- Claim C10 (amended): `editorOpen` splits the file contents at newline
bytes and, for every line, strips the trailing newline and an optional
carriage return before it.  For a file whose final line is not newline-
terminated this stripping is still applied: the final row loses its last
byte (and, if the then-last byte is a carriage return, that byte too), so
the loaded document does not round-trip the file.  Formally: for a file
`init ++ fin` where `init` is empty or ends in a newline and the final
segment `fin` is nonempty with no newline, the final row is
`stripLine fin`, i.e. `fin` with its last byte removed and then a
trailing carriage return removed — not `fin` itself. -/
theorem c10_final_line_truncated (init fin : List Char)
    (hne : fin ≠ []) (hnl : '\n' ∉ fin)
    (hinit : init = [] ∨ ∃ p, init = p ++ ['\n']) :
    editorOpenRows (init ++ fin) = editorOpenRows init ++ [stripLine fin] ∧
    stripLine fin = (if fin.dropLast ≠ [] ∧ fin.dropLast.getLastD (Char.ofNat 0) = '\r'
      then fin.dropLast.dropLast else fin.dropLast) :=
  ⟨editorOpenRows_split init.length init fin (Nat.le_refl _) hne hnl hinit,
   rfl⟩

/-- Claim C10's specific example: the file bytes `a\r b` (no trailing
newline) load as the single row `a` — the unterminated final line loses
its final byte `b` and then the carriage return as well, so the loaded
row differs from the file's actual final line `a\r b`. -/
theorem c10_counterexample :
    editorOpenRows ['a', '\r', 'b'] = [['a']] ∧
    (['a'] : List Char) ≠ ['a', '\r', 'b'] := by
  constructor
  · simp [editorOpenRows, takeLine, stripLine]
  · decide

theorem c10_witness :
    editorOpenRows (['x', '\n'] ++ ['a', 'b']) =
      editorOpenRows ['x', '\n'] ++ [stripLine ['a', 'b']] :=
  (c10_final_line_truncated ['x', '\n'] ['a', 'b'] (by decide) (by decide)
    (Or.inr ⟨['x'], rfl⟩)).1

/-! ### Newline split and backward-delete merge (claim C7) -/

theorem getElem?_insertIdx_self {α : Type} :
    ∀ (l : List α) (x : α) (n : Nat), n ≤ l.length → (l.insertIdx n x)[n]? = some x := by
  intro l x n
  induction n generalizing l with
  | zero => intro _; simp [List.insertIdx]
  | succ n ih =>
    intro h
    cases l with
    | nil => simp at h
    | cons a t =>
      simp only [List.insertIdx_succ_cons, List.getElem?_cons_succ]
      exact ih t (by simpa using h)

theorem length_insertIdx_of_le {α : Type} :
    ∀ (l : List α) (x : α) (n : Nat), n ≤ l.length →
      (l.insertIdx n x).length = l.length + 1 := by
  intro l x n
  induction n generalizing l with
  | zero => intro _; simp [List.insertIdx]
  | succ n ih =>
    intro h
    cases l with
    | nil => simp at h
    | cons a t =>
      simp only [List.insertIdx_succ_cons, List.length_cons]
      rw [ih t (by simpa using h)]

/-- The raw bytes of row `j` of a document, the projection the split/merge
round trip is stated over. -/
def rawAt (lines : List Line) (j : Nat) : Option (List Char) :=
  (lines[j]?).map Line.raw

theorem rawAt_updateRow (syn : Option EditorSyntax) (lines : List Line) (i j : Nat) :
    rawAt (editorUpdateRow syn lines i) j = rawAt lines j :=
  editorUpdateRow_raw syn lines i j

theorem editorUpdateRow_length (syn : Option EditorSyntax) (lines : List Line) (i : Nat) :
    (editorUpdateRow syn lines i).length = lines.length := by
  rw [editorUpdateRow]
  split
  · rfl
  · rename_i line hmem
    rw [editorUpdateSyntax_length syn
      ((lines.set i { line with render := renderOfRaw line.raw }).length)
      (lines.set i { line with render := renderOfRaw line.raw }) i (by omega)]
    exact List.length_set lines i _

theorem rawAt_set_ne (lines : List Line) (i j : Nat) (l : Line) (h : j ≠ i) :
    rawAt (lines.set i l) j = rawAt lines j := by
  rw [rawAt, List.getElem?_set_ne (by omega)]
  rfl

theorem rawAt_set_self (lines : List Line) (i : Nat) (l : Line) (h : i < lines.length) :
    rawAt (lines.set i l) i = some l.raw := by
  rw [rawAt, List.getElem?_set_self (by simpa using h)]
  rfl

theorem rawAt_eraseIdx_mid (L lines0 : List Line) (k : Nat)
    (h1 : ∀ j : Nat, j ≤ k → rawAt L j = rawAt lines0 j)
    (h2 : ∀ j : Nat, k < j → rawAt L (j + 1) = rawAt lines0 j) :
    ∀ j : Nat, rawAt (L.eraseIdx (k + 1)) j = rawAt lines0 j := by
  intro j
  by_cases hj : j ≤ k
  · rw [rawAt, getElem?_eraseIdx_lt L (k + 1) j (by omega)]
    exact h1 j hj
  · rw [rawAt, getElem?_eraseIdx_ge L (k + 1) j (by omega)]
    exact h2 j (by omega)

theorem rawAt_insertRow (st : EditorState) (at0 : Nat) (s : List Char)
    (h : at0 ≤ st.lines.length) :
    (editorInsertRow st at0 s).lines.length = st.lines.length + 1 ∧
    (∀ j : Nat, j < at0 → rawAt (editorInsertRow st at0 s).lines j = rawAt st.lines j) ∧
    rawAt (editorInsertRow st at0 s).lines at0 = some s ∧
    (∀ j : Nat, at0 < j → rawAt (editorInsertRow st at0 s).lines j = rawAt st.lines (j - 1)) := by
  refine ⟨?_, ?_, ?_, ?_⟩
  · simp only [editorInsertRow]
    rw [editorUpdateRow_length]
    exact length_insertIdx_of_le st.lines _ at0 h
  · intro j hj
    simp only [editorInsertRow]
    rw [rawAt_updateRow, rawAt, getElem?_insertIdx_lt st.lines _ at0 j hj]
    rfl
  · simp only [editorInsertRow]
    rw [rawAt_updateRow, rawAt, getElem?_insertIdx_self st.lines _ at0 h]
    rfl
  · intro j hj
    simp only [editorInsertRow]
    rw [rawAt_updateRow, rawAt, getElem?_insertIdx_gt st.lines _ at0 j hj]
    rfl

theorem map_raw_ext (L1 L2 : List Line) (h : ∀ j : Nat, rawAt L1 j = rawAt L2 j) :
    L1.map Line.raw = L2.map Line.raw := by
  apply List.ext_getElem?
  intro n
  rw [List.getElem?_map, List.getElem?_map]
  exact h n

/-- Appending the split-off tail back onto the front row and deleting the
tail row restores all raw bytes: `st'` is the post-split state whose row
`k` holds `front`, the original document `lines0` holds `front ++ tail`
at row `k`, and rows after the split row are the original rows shifted
by one. -/
theorem rawAt_append_delete (st' : EditorState) (lines0 : List Line) (k : Nat)
    (front tail : List Char)
    (hlen : st'.lines.length = lines0.length + 1)
    (hk : k < lines0.length)
    (hfront : rawAt st'.lines k = some front)
    (hlow : ∀ j : Nat, j < k → rawAt st'.lines j = rawAt lines0 j)
    (hkk : rawAt lines0 k = some (front ++ tail))
    (hhigh : ∀ j : Nat, k < j → rawAt st'.lines (j + 1) = rawAt lines0 j) :
    ∀ j : Nat, rawAt (editorDelRow (editorRowAppendString st' k tail) (k + 1)).lines j =
      rawAt lines0 j := by
  have key : (editorRowAppendString st' k tail).lines.length = lines0.length + 1 ∧
      (∀ j : Nat, j ≤ k → rawAt (editorRowAppendString st' k tail).lines j = rawAt lines0 j) ∧
      (∀ j : Nat, k < j →
        rawAt (editorRowAppendString st' k tail).lines (j + 1) = rawAt lines0 j) := by
    by_cases htail : tail = []
    · rw [editorRowAppendString, if_pos htail]
      refine ⟨hlen, ?_, hhigh⟩
      intro j hj
      rcases Nat.lt_or_ge j k with hlt | hge
      · exact hlow j hlt
      · have hjk : j = k := by omega
        subst hjk
        rw [hfront, hkk, htail, List.append_nil]
    · have hlk : ∃ lk, st'.lines[k]? = some lk ∧ lk.raw = front := by
        rcases hmem : st'.lines[k]? with _ | lk
        · rw [rawAt, hmem] at hfront; cases hfront
        · rw [rawAt, hmem] at hfront
          injection hfront with hfront
          exact ⟨lk, rfl, hfront⟩
      obtain ⟨lk, hmem, hraw⟩ := hlk
      rw [editorRowAppendString, if_neg htail]
      split
      · rename_i hnone; rw [hmem] at hnone; cases hnone
      · rename_i lk' hmem'
        rw [hmem] at hmem'
        injection hmem' with hmem'
        subst hmem'
        have hklt : k < st'.lines.length := by omega
        refine ⟨?_, ?_, ?_⟩
        · rw [editorUpdateRow_length, List.length_set]
          exact hlen
        · intro j hj
          rw [rawAt_updateRow]
          rcases Nat.lt_or_ge j k with hlt | hge
          · rw [rawAt_set_ne _ _ _ _ (by omega)]
            exact hlow j hlt
          · have hjk : j = k := by omega
            subst hjk
            rw [rawAt_set_self _ _ _ hklt]
            show some (lk.raw ++ tail) = rawAt lines0 j
            rw [hraw, hkk]
        · intro j hj
          rw [rawAt_updateRow, rawAt_set_ne _ _ _ _ (by omega)]
          exact hhigh j hj
  obtain ⟨klen, k1, k2⟩ := key
  have hcond : k + 1 < (editorRowAppendString st' k tail).lines.length := by omega
  intro j
  have hdel : (editorDelRow (editorRowAppendString st' k tail) (k + 1)).lines =
      (editorRowAppendString st' k tail).lines.eraseIdx (k + 1) := by
    rw [editorDelRow, if_pos hcond]
  rw [hdel]
  exact rawAt_eraseIdx_mid _ lines0 k k1 k2 j

/-- The backward-delete at column 0 of a row below the first: kilo merges
the row into the one above by appending its raw bytes and deleting it. -/
theorem editorDelChar_merge (st1 : EditorState) (line2 : Line)
    (hcy : 0 < st1.cy) (hcx : st1.cx = 0)
    (hlt : st1.cy < st1.lines.length)
    (hrow2 : st1.lines[st1.cy]? = some line2) :
    editorDelChar st1 = editorDelRow (editorRowAppendString
      { st1 with
        cy := st1.cy - 1,
        cx := ((st1.lines[st1.cy - 1]?).map (fun l => l.raw.length)).getD 0 }
      (st1.cy - 1) line2.raw) st1.cy := by
  rw [editorDelChar, if_pos hlt]
  split
  · rename_i hnone; rw [hrow2] at hnone; cases hnone
  · rename_i l hm
    rw [hrow2] at hm
    injection hm with hm
    subst hm
    rw [if_neg (by omega), if_pos hcy]

/-- Row-level effect of the newline split with the cursor inside a row
(column > 0): row `cy` keeps the first `cx` raw bytes, a new row below
holds the rest, later rows shift down by one, and the cursor column
becomes 0. -/
theorem editorInsertNewlineGo_split (st : EditorState) (line : Line)
    (hrow : st.lines[st.cy]? = some line) (hx : 0 < st.cx) :
    (editorInsertNewlineGo st).esyn = st.esyn ∧
    (editorInsertNewlineGo st).cy = st.cy ∧
    (editorInsertNewlineGo st).cx = 0 ∧
    (editorInsertNewlineGo st).lines.length = st.lines.length + 1 ∧
    (∀ j : Nat, j < st.cy → rawAt (editorInsertNewlineGo st).lines j = rawAt st.lines j) ∧
    rawAt (editorInsertNewlineGo st).lines st.cy = some (line.raw.take st.cx) ∧
    rawAt (editorInsertNewlineGo st).lines (st.cy + 1) = some (line.raw.drop st.cx) ∧
    (∀ j : Nat, st.cy + 1 < j →
      rawAt (editorInsertNewlineGo st).lines j = rawAt st.lines (j - 1)) := by
  have hcy : st.cy < st.lines.length := by
    by_contra hh
    simp [List.getElem?_eq_none (Nat.le_of_not_lt hh)] at hrow
  obtain ⟨hl1, hl2, hl3, hl4⟩ :=
    rawAt_insertRow st (st.cy + 1) (line.raw.drop st.cx) (by omega)
  have hmid : rawAt (editorInsertRow st (st.cy + 1) (line.raw.drop st.cx)).lines st.cy =
      some line.raw := by
    rw [hl2 st.cy (Nat.lt_succ_self st.cy), rawAt, hrow]
    rfl
  have hline1 : ∃ line1,
      (editorInsertRow st (st.cy + 1) (line.raw.drop st.cx)).lines[st.cy]? = some line1 ∧
      line1.raw = line.raw := by
    rcases hm : (editorInsertRow st (st.cy + 1) (line.raw.drop st.cx)).lines[st.cy]?
      with _ | line1
    · rw [rawAt, hm] at hmid; cases hmid
    · rw [rawAt, hm] at hmid
      injection hmid with hmid
      exact ⟨line1, rfl, hmid⟩
  obtain ⟨line1, hm1, hraw1⟩ := hline1
  rw [editorInsertNewlineGo, if_pos hx]
  split
  · rename_i hnone; rw [hrow] at hnone; cases hnone
  · rename_i line' hmem'
    rw [hrow] at hmem'
    injection hmem' with hmem'
    subst hmem'
    split
    · rename_i hnone; rw [hm1] at hnone; cases hnone
    · rename_i line1' hmem1
      rw [hm1] at hmem1
      injection hmem1 with hmem1
      subst hmem1
      have hsetlen :
          st.cy < (editorInsertRow st (st.cy + 1) (line.raw.drop st.cx)).lines.length := by
        omega
      refine ⟨?_, ?_, ?_, ?_, ?_, ?_, ?_, ?_⟩
      · simp only [editorInsertRow]
      · simp only [editorInsertRow]
      · simp only [editorInsertRow]
      · show (editorUpdateRow st.esyn _ st.cy).length = st.lines.length + 1
        rw [editorUpdateRow_length, List.length_set]
        exact hl1
      · intro j hj
        show rawAt (editorUpdateRow st.esyn _ st.cy) j = rawAt st.lines j
        rw [rawAt_updateRow, rawAt_set_ne _ _ _ _ (by omega)]
        exact hl2 j (by omega)
      · show rawAt (editorUpdateRow st.esyn _ st.cy) st.cy = some (line.raw.take st.cx)
        rw [rawAt_updateRow, rawAt_set_self _ _ _ hsetlen]
        show some (line1.raw.take st.cx) = _
        rw [hraw1]
      · show rawAt (editorUpdateRow st.esyn _ st.cy) (st.cy + 1) =
          some (line.raw.drop st.cx)
        rw [rawAt_updateRow, rawAt_set_ne _ _ _ _ (by omega)]
        exact hl3
      · intro j hj
        show rawAt (editorUpdateRow st.esyn _ st.cy) j = rawAt st.lines (j - 1)
        rw [rawAt_updateRow, rawAt_set_ne _ _ _ _ (by omega)]
        exact hl4 j (by omega)

/-- Claim C7: for a cursor on a row (any column up to the row's raw
length), inserting a newline and then performing a backward character
delete at column 0 of the resulting row below reconstructs the original
document: every row's raw bytes (and hence the row count) are exactly as
before the split. -/
theorem c7_split_merge_roundtrip (st : EditorState) (line : Line)
    (hrow : st.lines[st.cy]? = some line) (hcx : st.cx ≤ line.raw.length) :
    (editorDelChar (editorInsertNewline st)).lines.map Line.raw = st.lines.map Line.raw := by
  have hcy : st.cy < st.lines.length := by
    by_contra hh
    simp [List.getElem?_eq_none (Nat.le_of_not_lt hh)] at hrow
  apply map_raw_ext
  have hLines : (editorInsertNewline st).lines = (editorInsertNewlineGo st).lines := rfl
  have hCy : (editorInsertNewline st).cy = (editorInsertNewlineGo st).cy + 1 := rfl
  have hCx : (editorInsertNewline st).cx = (editorInsertNewlineGo st).cx := rfl
  by_cases hx : 0 < st.cx
  · obtain ⟨hsyn, hcy1, hcx1, hlen1, hlow1, hmid1, hdrop1, hhigh1⟩ :=
      editorInsertNewlineGo_split st line hrow hx
    have hline2 : ∃ line2,
        (editorInsertNewline st).lines[(editorInsertNewline st).cy]? = some line2 ∧
        line2.raw = line.raw.drop st.cx := by
      rw [hLines, hCy, hcy1]
      rcases hm : (editorInsertNewlineGo st).lines[st.cy + 1]? with _ | line2
      · rw [rawAt, hm] at hdrop1; cases hdrop1
      · rw [rawAt, hm] at hdrop1
        injection hdrop1 with hdrop1
        exact ⟨line2, rfl, hdrop1⟩
    obtain ⟨line2, hm2, hraw2⟩ := hline2
    have hmerge := editorDelChar_merge (editorInsertNewline st) line2
      (by rw [hCy]; omega)
      (by rw [hCx, hcx1])
      (by rw [hCy, hcy1, hLines, hlen1]; omega)
      hm2
    rw [hmerge]
    have hcyv : (editorInsertNewline st).cy = st.cy + 1 := by rw [hCy, hcy1]
    rw [hcyv]
    simp only [Nat.add_sub_cancel]
    intro j
    refine rawAt_append_delete _ st.lines st.cy (line.raw.take st.cx) line2.raw
      ?_ hcy ?_ ?_ ?_ ?_ j
    · exact hlen1
    · exact hmid1
    · exact hlow1
    · rw [hraw2, List.take_append_drop, rawAt, hrow]
      rfl
    · intro j' hj'
      have h := hhigh1 (j' + 1) (by omega)
      simpa using h
  · have hx0 : st.cx = 0 := by omega
    have hGo : editorInsertNewlineGo st = editorInsertRow st st.cy [] := by
      rw [editorInsertNewlineGo, if_neg hx]
    obtain ⟨hl1, hl2, hl3, hl4⟩ := rawAt_insertRow st st.cy [] (Nat.le_of_lt hcy)
    have hcyGo : (editorInsertNewlineGo st).cy = st.cy := by
      rw [hGo]
      rfl
    have hcxGo : (editorInsertNewlineGo st).cx = 0 := by
      rw [hGo]
      show st.cx = 0
      exact hx0
    have hdropB : rawAt (editorInsertNewlineGo st).lines (st.cy + 1) = some line.raw := by
      rw [hGo, hl4 (st.cy + 1) (Nat.lt_succ_self st.cy)]
      simp only [Nat.add_sub_cancel]
      rw [rawAt, hrow]
      rfl
    have hlenB : (editorInsertNewlineGo st).lines.length = st.lines.length + 1 := by
      rw [hGo]
      exact hl1
    have hline2 : ∃ line2,
        (editorInsertNewline st).lines[(editorInsertNewline st).cy]? = some line2 ∧
        line2.raw = line.raw := by
      rw [hLines, hCy, hcyGo]
      rcases hm : (editorInsertNewlineGo st).lines[st.cy + 1]? with _ | line2
      · rw [rawAt, hm] at hdropB; cases hdropB
      · rw [rawAt, hm] at hdropB
        injection hdropB with h
        exact ⟨line2, rfl, h⟩
    obtain ⟨line2, hm2, hraw2⟩ := hline2
    have hmerge := editorDelChar_merge (editorInsertNewline st) line2
      (by rw [hCy]; omega)
      (by rw [hCx, hcxGo])
      (by rw [hCy, hcyGo, hLines, hlenB]; omega)
      hm2
    rw [hmerge]
    have hcyv : (editorInsertNewline st).cy = st.cy + 1 := by rw [hCy, hcyGo]
    rw [hcyv]
    simp only [Nat.add_sub_cancel]
    intro j
    refine rawAt_append_delete _ st.lines st.cy [] line2.raw ?_ hcy ?_ ?_ ?_ ?_ j
    · exact hlenB
    · show rawAt (editorInsertNewlineGo st).lines st.cy = some []
      rw [hGo]
      exact hl3
    · intro j' hj'
      show rawAt (editorInsertNewlineGo st).lines j' = rawAt st.lines j'
      rw [hGo]
      exact hl2 j' hj'
    · rw [List.nil_append, hraw2, rawAt, hrow]
      rfl
    · intro j' hj'
      show rawAt (editorInsertNewlineGo st).lines (j' + 1) = rawAt st.lines j'
      rw [hGo, hl4 (j' + 1) (by omega)]
      simp only [Nat.add_sub_cancel]

theorem c7_witness :
    (editorDelChar (editorInsertNewline
      { esyn := none,
        lines := [{ raw := ['a', 'b'], render := ['a', 'b'],
                    hl := [Hl.normal, Hl.normal], hlOpenComment := false }],
        cx := 1, cy := 0, dirty := 0 })).lines.map Line.raw =
      ([{ raw := ['a', 'b'], render := ['a', 'b'],
          hl := [Hl.normal, Hl.normal], hlOpenComment := false }] : List Line).map Line.raw :=
  c7_split_merge_roundtrip _ _ rfl (by decide)

/-! ### Visual-column conversions (claim C5) -/

theorem rxToCxGo_spec : ∀ (l : List Char) (cur cx0 rx : Nat), cur ≤ rx →
    ∃ k : Nat, rxToCxGo l cur cx0 rx = cx0 + k ∧ k ≤ l.length ∧
      (∀ j : Nat, j < k → cxToRxGo l (j + 1) cur ≤ rx) ∧
      (k < l.length → rx < cxToRxGo l (k + 1) cur) ∧
      cxToRxGo l k cur ≤ rx ∧
      (k < l.length → l[k]? ≠ some '\t' → cxToRxGo l k cur = rx) := by
  intro l
  induction l with
  | nil =>
    intro cur cx0 rx hle
    refine ⟨0, rfl, Nat.le_refl 0, ?_, ?_, hle, ?_⟩
    · intro j hj; omega
    · intro h; simp at h
    · intro h; simp at h
  | cons c rest ih =>
    intro cur cx0 rx hle
    by_cases hbr : rx < rxStep cur c
    · refine ⟨0, ?_, ?_, ?_, ?_, hle, ?_⟩
      · simp only [rxToCxGo]
        rw [if_pos hbr]
        omega
      · simp
      · intro j hj; omega
      · intro _
        simp only [Nat.zero_add, cxToRxGo]
        exact hbr
      · intro _ hnt
        have hct : c ≠ '\t' := by
          intro h
          exact hnt (by simp [h])
        have hstep : rxStep cur c = cur + 1 := by rw [rxStep, if_neg hct]
        rw [hstep] at hbr
        show cur = rx
        omega
    · have hle' : rxStep cur c ≤ rx := Nat.le_of_not_lt hbr
      obtain ⟨k, hk, hkle, hb, hc2, hd, he⟩ := ih (rxStep cur c) (cx0 + 1) rx hle'
      refine ⟨k + 1, ?_, ?_, ?_, ?_, ?_, ?_⟩
      · simp only [rxToCxGo]
        rw [if_neg hbr, hk]
        omega
      · simp only [List.length_cons]
        omega
      · intro j hj
        cases j with
        | zero =>
          simp only [Nat.zero_add, cxToRxGo]
          exact hle'
        | succ j' =>
          show cxToRxGo rest (j' + 1) (rxStep cur c) ≤ rx
          exact hb j' (by omega)
      · intro hlt
        show rx < cxToRxGo rest (k + 1) (rxStep cur c)
        exact hc2 (by simpa using hlt)
      · show cxToRxGo rest k (rxStep cur c) ≤ rx
        exact hd
      · intro hlt hnt
        show cxToRxGo rest k (rxStep cur c) = rx
        exact he (by simpa using hlt) (by simpa using hnt)

/-- Claim C5 (amended): `editorRowRxToCx` returns the first raw-byte index
whose visual end column exceeds the target `rx` — the raw length when
every byte of the row ends at or before `rx` — and the composition with
`editorRowCxToRx` lands at the start of the cell containing `rx` (at or
before `rx`, with the next byte ending past `rx` while the index is in
range), equal to `rx` exactly when the returned index is a non-tab byte
of the row.  (As literally stated the claim is false: for `rx` beyond the
row's last visual column the composition returns the row's total visual
width, not `rx`, even though such an `rx` lies inside no expanded tab —
see the counterexample.) -/
theorem c5_rx_to_cx_inverse (raw : List Char) (rx : Nat) :
    editorRowRxToCx raw rx ≤ raw.length ∧
    (∀ j : Nat, j < editorRowRxToCx raw rx → editorRowCxToRx raw (j + 1) ≤ rx) ∧
    (editorRowRxToCx raw rx < raw.length →
      rx < editorRowCxToRx raw (editorRowRxToCx raw rx + 1)) ∧
    editorRowCxToRx raw (editorRowRxToCx raw rx) ≤ rx ∧
    (editorRowRxToCx raw rx < raw.length →
      raw[editorRowRxToCx raw rx]? ≠ some '\t' →
      editorRowCxToRx raw (editorRowRxToCx raw rx) = rx) := by
  obtain ⟨k, hk, hkle, hb, hc, hd, he⟩ := rxToCxGo_spec raw 0 0 rx (Nat.zero_le rx)
  simp only [editorRowRxToCx, editorRowCxToRx, hk, Nat.zero_add]
  exact ⟨hkle, hb, hc, hd, he⟩

/-- Claim C5, as stated, is false for a target visual column beyond the
row's last visual column: in the tab-free row `a`, `rx = 5` yields
`rxToCx = 1` and the composition gives visual column 1, not 5, although
column 5 lies inside no expanded tab. -/
theorem c5_counterexample :
    editorRowRxToCx ['a'] 5 = 1 ∧
    editorRowCxToRx ['a'] (editorRowRxToCx ['a'] 5) = 1 ∧
    (1 : Nat) ≠ 5 ∧ ('a' : Char) ≠ '\t' := by
  decide

theorem c5_witness :
    editorRowCxToRx ['\t', 'a'] (editorRowRxToCx ['\t', 'a'] 8) = 8 :=
  (c5_rx_to_cx_inverse ['\t', 'a'] 8).2.2.2.2 (by decide) (by decide)

/-! ### Multi-line comment propagation and clearing (claim C1) -/

theorem occurs_drop (pat : List Char) :
    ∀ (l : List Char) (n : Nat), occurs pat l = false → occurs pat (l.drop n) = false := by
  intro l
  induction l with
  | nil =>
    intro n h
    rw [List.drop_nil]
    exact h
  | cons c r ih =>
    intro n h
    cases n with
    | zero => exact h
    | succ n =>
      rw [List.drop_succ_cons]
      refine ih n ?_
      rw [occurs, Bool.or_eq_false_iff] at h
      exact h.2

/-- A scan step entered outside a multi-line comment, on a suffix in which
the comment-start token does not occur, leaves the in-comment flag clear. -/
theorem hlStep_inComment {syn : EditorSyntax} {st : ScanState} {c : Char}
    {rest : List Char} {hls : List Hl} {st' : ScanState}
    (hst : st.inComment = false)
    (hocc : occurs syn.multilineCommentStart (c :: rest) = false)
    (h : hlStep syn st c rest = Sum.inl (hls, st')) :
    st'.inComment = false := by
  have hnp : syn.multilineCommentStart.isPrefixOf (c :: rest) = false := by
    rw [occurs, Bool.or_eq_false_iff] at hocc
    exact hocc.1
  rw [hlStep, hlStep.hlStepRest] at h
  split_ifs at h with hA hB hC hD hE hF hG hH hI hJ hK hL hM hN hO hP hQ <;>
    (try (rcases hs : st.inString with _ | q <;> simp only [hs] at h)) <;>
    (try split_ifs at h with hR hS) <;>
    (try simp only [Sum.inl.injEq, Prod.mk.injEq] at h) <;>
  first
  | (rw [hnp] at hD; exact Bool.noConfusion hD)
  | (rw [hst] at hB; exact Bool.noConfusion hB)
  | (obtain ⟨ha, hb⟩ := h
     subst hb
     simpa using hst)
  | (rcases hk : findKeyword syn.keywords (c :: rest) with _ | ⟨kw2, body⟩ <;>
       simp only [hk, Sum.inl.injEq, Prod.mk.injEq] at h <;>
       (obtain ⟨ha, hb⟩ := h; subst hb; simpa using hst))
  | simp at h

theorem hlScanAux_inComment (syn : EditorSyntax) :
    ∀ n (st : ScanState) (l : List Char), l.length ≤ n → st.inComment = false →
      occurs syn.multilineCommentStart l = false →
      (hlScanAux syn st l).2 = false := by
  intro n
  induction n with
  | zero =>
    intro st l hl hst hocc
    have : l = [] := List.length_eq_zero.mp (Nat.le_zero.mp hl)
    subst this
    rw [hlScanAux]
    exact hst
  | succ n ih =>
    intro st l hl hst hocc
    match l with
    | [] => rw [hlScanAux]; exact hst
    | c :: rest =>
      rw [hlScanAux]
      rcases hstep : hlStep syn st c rest with ⟨hls, st'⟩ | hls
      · simp only
        obtain ⟨hb1, hb2⟩ := hlStep_inl_length hstep
        have hdrop : (rest.drop (hls.length - 1)).length ≤ n := by
          simp only [List.length_drop]
          simp only [List.length_cons] at hl
          omega
        have hst' : st'.inComment = false := hlStep_inComment hst hocc hstep
        have hocc' : occurs syn.multilineCommentStart (rest.drop (hls.length - 1)) = false := by
          refine occurs_drop _ rest _ ?_
          rw [occurs, Bool.or_eq_false_iff] at hocc
          exact hocc.2
        exact ih st' (rest.drop (hls.length - 1)) hdrop hst' hocc'
      · simp only
        exact hst

/-- Scanning a row's render bytes from a closed-comment entry state leaves
the row's open-comment flag clear when the comment-start token does not
occur in the render bytes. -/
theorem hlScan_inComment (syn : EditorSyntax) (render : List Char)
    (hocc : occurs syn.multilineCommentStart render = false) :
    (hlScan syn false render).2 = false :=
  hlScanAux_inComment syn render.length _ render (Nat.le_refl _) rfl hocc

/-- The clearing cascade of `editorUpdateSyntax`: starting a recompute at
row `i` with a closed entry state, if every row in `[i, M)` currently
stores an open flag and none of their render bytes contains the
comment-start token, the recompute runs row by row through `M` and every
row in `[i, M)` ends with its open-comment flag clear. -/
theorem editorUpdateSyntax_clears (s : EditorSyntax) :
    ∀ n (lines : List Line) (i M : Nat), lines.length - i ≤ n →
      M ≤ lines.length →
      syntaxInC lines i = false →
      (∀ j l, i ≤ j → j < M → lines[j]? = some l → l.hlOpenComment = true) →
      (∀ j l, i ≤ j → j < M → lines[j]? = some l →
        occurs s.multilineCommentStart l.render = false) →
      ∀ j : Nat, i ≤ j → j < M →
        ((editorUpdateSyntax (some s) lines i)[j]?).map Line.hlOpenComment = some false := by
  intro n
  induction n with
  | zero => intro lines i M hn hM hin hstored hocc j hij hjM; omega
  | succ n ih =>
    intro lines i M hn hM hin hstored hocc j hij hjM
    have hiM : i < M := by omega
    have hil : i < lines.length := by omega
    rcases hmem : lines[i]? with _ | line
    · rw [List.getElem?_eq_none_iff] at hmem; omega
    have hofalse : (hlScan s (syntaxInC lines i) line.render).2 = false := by
      rw [hin]
      exact hlScan_inComment s line.render (hocc i line (Nat.le_refl i) hiM hmem)
    have hrowflag : (updateSyntaxRow s (syntaxInC lines i) line).hlOpenComment = false := by
      simp [updateSyntaxRow, hofalse]
    rw [editorUpdateSyntax]
    split
    · rename_i hnone; rw [hmem] at hnone; cases hnone
    · rename_i line' hmem'
      rw [hmem] at hmem'
      injection hmem' with hmem'
      subst hmem'
      simp only []
      by_cases hcond : line.hlOpenComment ≠ (hlScan s (syntaxInC lines i) line.render).2 ∧
          i + 1 < lines.length
      · rw [if_pos hcond]
        by_cases hji : j = i
        · subst hji
          rw [editorUpdateSyntax_frame (some s)
            (lines.set j (updateSyntaxRow s (syntaxInC lines j) line)).length
            (lines.set j (updateSyntaxRow s (syntaxInC lines j) line)) (j + 1)
            (Nat.sub_le _ _) j (Nat.lt_succ_self j)]
          rw [List.getElem?_set_self (by simpa using hil), Option.map_some', hrowflag]
        · refine ih (lines.set i (updateSyntaxRow s (syntaxInC lines i) line)) (i + 1) M
            ?_ ?_ ?_ ?_ ?_ j (by omega) hjM
          · simp only [List.length_set]; omega
          · simp only [List.length_set]; omega
          · rw [syntaxInC]
            simp only [Nat.add_sub_cancel]
            rw [List.getElem?_set_self (by simpa using hil)]
            simp [hrowflag]
          · intro j' l' h1 h2 hm
            rw [List.getElem?_set_ne (by omega)] at hm
            exact hstored j' l' (by omega) h2 hm
          · intro j' l' h1 h2 hm
            rw [List.getElem?_set_ne (by omega)] at hm
            exact hocc j' l' (by omega) h2 hm
      · rw [if_neg hcond]
        have hstor : line.hlOpenComment = true := hstored i line (Nat.le_refl i) hiM hmem
        have hi1 : ¬ (i + 1 < lines.length) := by
          intro hlt
          refine hcond ⟨?_, hlt⟩
          rw [hstor, hofalse]
          decide
        have hji : j = i := by omega
        subst hji
        rw [List.getElem?_set_self (by simpa using hil), Option.map_some', hrowflag]

/-- Claim C1 (amended): while a multi-line comment block spans rows
`[i, M)` (every such row stores an open flag), each row strictly inside
the block sees an open comment flowing in (`syntaxInC`, the seed
`open_comment_in` of its scan) and flowing out (its own stored flag); and
when row `i` is edited so that its rebuilt render bytes no longer contain
the comment-start token, the recompute of row `i` (`editorUpdateRow`,
which re-runs `editorUpdateSyntax` and recurses while the open flag keeps
changing) re-propagates row by row and clears the open-comment state on
every row of `[i, M)` — provided the comment-start token occurs on no row
of the block, because (original claim's flaw) a comment-start token on a
row between `i` and `M` re-opens a comment there and stops the clearing:
see the counterexample. -/
theorem c1_comment_clearing (s : EditorSyntax) (lines : List Line) (i M : Nat) (line : Line)
    (hrow : lines[i]? = some line)
    (hM : M ≤ lines.length)
    (hin : syntaxInC lines i = false)
    (hstored : ∀ j l, i ≤ j → j < M → lines[j]? = some l → l.hlOpenComment = true)
    (hoccEdit : occurs s.multilineCommentStart (renderOfRaw line.raw) = false)
    (hocc : ∀ j l, i < j → j < M → lines[j]? = some l →
      occurs s.multilineCommentStart l.render = false) :
    (∀ j : Nat, i < j → j < M → syntaxInC lines j = true) ∧
    (∀ j : Nat, i ≤ j → j < M →
      ((editorUpdateRow (some s) lines i)[j]?).map Line.hlOpenComment = some false) := by
  have hil : i < lines.length := by
    by_contra hh
    simp [List.getElem?_eq_none (Nat.le_of_not_lt hh)] at hrow
  constructor
  · intro j hij hjM
    have h0 : 0 < j := by omega
    rcases hm : lines[j - 1]? with _ | l
    · rw [List.getElem?_eq_none_iff] at hm; omega
    · have hfl := hstored (j - 1) l (by omega) (by omega) hm
      simp [syntaxInC, hm, hfl, h0]
  · rw [editorUpdateRow]
    split
    · rename_i hnone; rw [hrow] at hnone; cases hnone
    · rename_i line' hm'
      rw [hrow] at hm'
      injection hm' with hm'
      subst hm'
      intro j hij hjM
      refine editorUpdateSyntax_clears s
        (lines.set i { line with render := renderOfRaw line.raw }).length
        (lines.set i { line with render := renderOfRaw line.raw }) i M
        (Nat.sub_le _ _) ?_ ?_ ?_ ?_ j hij hjM
      · simp only [List.length_set]; exact hM
      · rcases Nat.eq_zero_or_pos i with h0 | h0
        · subst h0; simp [syntaxInC]
        · rw [syntaxInC, List.getElem?_set_ne (by omega)]
          rw [syntaxInC] at hin
          exact hin
      · intro j' l' h1 h2 hm
        by_cases hji : j' = i
        · subst hji
          rw [List.getElem?_set_self (by simpa using hil)] at hm
          injection hm with hm
          subst hm
          show line.hlOpenComment = true
          exact hstored j' line (Nat.le_refl j') h2 hrow
        · rw [List.getElem?_set_ne (by omega)] at hm
          exact hstored j' l' h1 h2 hm
      · intro j' l' h1 h2 hm
        by_cases hji : j' = i
        · subst hji
          rw [List.getElem?_set_self (by simpa using hil)] at hm
          injection hm with hm
          subst hm
          show occurs s.multilineCommentStart (renderOfRaw line.raw) = false
          exact hoccEdit
        · rw [List.getElem?_set_ne (by omega)] at hm
          exact hocc j' l' (by omega) h2 hm

/-- Claim C1, as stated, is false: in the document `/*`, `/*`, `*/` the
comment opened on row 0 is first closed on row 2 and the flags after
loading are `[true, true, false]`; editing row 0 so its comment-start
token is removed (deleting its first byte) re-runs the highlighter, but
the re-propagation does not clear the open-comment state through row 2 —
row 1's own `/*` re-opens a comment and the flags settle at
`[false, true, false]`, so the row strictly between keeps flag `true`. -/
theorem c1_counterexample :
    ((editorInsertRow (editorInsertRow (editorInsertRow
        { esyn := some cSyntax, lines := [], cx := 0, cy := 0, dirty := 0 }
        0 ['/', '*']) 1 ['/', '*']) 2 ['*', '/']).lines.map Line.hlOpenComment =
      [true, true, false]) ∧
    ((editorRowDelChar (editorInsertRow (editorInsertRow (editorInsertRow
        { esyn := some cSyntax, lines := [], cx := 0, cy := 0, dirty := 0 }
        0 ['/', '*']) 1 ['/', '*']) 2 ['*', '/']) 0 0).lines.map Line.hlOpenComment =
      [false, true, false]) ∧
    (true : Bool) ≠ false := by
  refine ⟨?_, ?_, by decide⟩ <;>
  simp [editorInsertRow, editorRowDelChar, editorUpdateRow, editorUpdateSyntax,
    renderOfRaw, editorUpdateRowGo, List.insertIdx, List.set, List.eraseIdx, hlScan,
    hlScanAux, hlStep, hlStep.hlStepRest, findKeyword, kwBody, cSyntax, is_separator,
    syntaxInC, updateSyntaxRow]

theorem c1_witness :
    ∃ l, (editorUpdateRow (some cSyntax)
        [{ raw := ['*'], render := ['*'], hl := [Hl.mlcomment], hlOpenComment := true },
          { raw := ['x'], render := ['x'], hl := [Hl.mlcomment], hlOpenComment := true }]
        0)[1]? = some l ∧ l.hlOpenComment = false := by
  have h := (c1_comment_clearing cSyntax
      [{ raw := ['*'], render := ['*'], hl := [Hl.mlcomment], hlOpenComment := true },
        { raw := ['x'], render := ['x'], hl := [Hl.mlcomment], hlOpenComment := true }]
      0 2
      { raw := ['*'], render := ['*'], hl := [Hl.mlcomment], hlOpenComment := true }
      rfl (by decide) (by decide)
      (by
        intro j l h1 h2 hm
        interval_cases j <;> (simp at hm; subst hm; rfl))
      (by simp [renderOfRaw, editorUpdateRowGo, occurs, cSyntax, List.isPrefixOf])
      (by
        intro j l h1 h2 hm
        interval_cases j
        simp at hm
        subst hm
        decide)).2 1 (by decide) (by decide)
  rcases hm : (editorUpdateRow (some cSyntax)
      [{ raw := ['*'], render := ['*'], hl := [Hl.mlcomment], hlOpenComment := true },
        { raw := ['x'], render := ['x'], hl := [Hl.mlcomment], hlOpenComment := true }]
      0)[1]? with _ | l
  · rw [hm] at h
    simp at h
  · rw [hm] at h
    simp only [Option.map_some', Option.some.injEq] at h
    exact ⟨l, rfl, h⟩

end Kilo
